import Mathlib

/-!
Verification of the PoseEdit multi-camera triangulation core.

This file shallowly embeds the numerical triangulation code of the
repository (`src/pose_editor/core/triangulation.py` and
`src/pose_editor/pose2sim/triangulate_point.py`) and proves the frozen
claims about it.

Floating-point numbers are modelled by the type `PF` below: either `nan`,
`+inf`, `-inf`, or a finite rational value.  Arithmetic and comparisons on
`PF` follow the IEEE-754 rules used by Python/numpy floats (NaN propagates
through arithmetic, every ordering comparison involving NaN is false,
`inf + (-inf) = nan`, `x / 0` is `±inf` for `x ≠ 0` and `nan` for `0 / 0`,
and so on).  The singular-value decomposition performed by
`cv2.SVDecomp` and the axis-angle conversion performed by `cv2.Rodrigues`
are numerical black boxes; they are modelled as explicit oracle parameters
(`svd`, `rodrigues`), so every theorem below holds for every possible
numeric outcome of those decompositions.  `np.sqrt` on a finite
nonnegative value is modelled by the computable `ratSqrt`; no claim
depends on the numeric value of a square root, only on its
finite/NaN/infinite classification, which `ratSqrt` preserves exactly.
-/

attribute [local semireducible] Rat.add Rat.mul Rat.inv Rat.sub

/-- Integer square-root approximation (largest `k` with `k * k ≤ n`),
written as a kernel-reducible linear search. -/
def natSqrtApprox (n : ℕ) : ℕ :=
  ((List.range (n + 1)).filter (fun k => k * k ≤ n)).foldl max 0

/-- A fixed computable stand-in for the real square root on nonnegative
rationals.  The triangulation claims depend only on NaN/∞/finiteness of
square roots, never on their numeric value, so any fixed total function
with `ratSqrt (q * q) = q` for small naturals serves. -/
def ratSqrt (q : ℚ) : ℚ :=
  (natSqrtApprox q.num.toNat : ℚ) / (natSqrtApprox q.den : ℚ)

/-- IEEE-754-style scalar: NaN, +∞, -∞, or a finite (rational) value. -/
inductive PF where
  | nan : PF
  | inf : PF
  | ninf : PF
  | val : ℚ → PF
deriving DecidableEq, Repr

namespace PF

/-- `np.isnan`. -/
def isnan : PF → Bool
  | nan => true
  | _ => false

/-- IEEE negation. -/
def neg : PF → PF
  | nan => nan
  | inf => ninf
  | ninf => inf
  | val q => val (-q)

/-- IEEE addition: NaN propagates, `inf + (-inf) = nan`. -/
def add : PF → PF → PF
  | nan, _ => nan
  | _, nan => nan
  | inf, ninf => nan
  | ninf, inf => nan
  | inf, _ => inf
  | _, inf => inf
  | ninf, _ => ninf
  | _, ninf => ninf
  | val a, val b => val (a + b)

/-- IEEE subtraction. -/
def sub (a b : PF) : PF := add a (neg b)

/-- IEEE multiplication: NaN propagates, `±inf * 0 = nan`, signs as usual. -/
def mul : PF → PF → PF
  | nan, _ => nan
  | _, nan => nan
  | inf, inf => inf
  | inf, ninf => ninf
  | ninf, inf => ninf
  | ninf, ninf => inf
  | inf, val q => if q = 0 then nan else if 0 < q then inf else ninf
  | val q, inf => if q = 0 then nan else if 0 < q then inf else ninf
  | ninf, val q => if q = 0 then nan else if 0 < q then ninf else inf
  | val q, ninf => if q = 0 then nan else if 0 < q then ninf else inf
  | val a, val b => val (a * b)

/-- IEEE (numpy) division: `x / 0` is `±inf` for finite `x ≠ 0`, `0 / 0 = nan`,
`±inf / ±inf = nan`, `finite / ±inf = 0`. -/
def div : PF → PF → PF
  | nan, _ => nan
  | _, nan => nan
  | inf, inf => nan
  | inf, ninf => nan
  | ninf, inf => nan
  | ninf, ninf => nan
  | inf, val q => if 0 ≤ q then inf else ninf
  | ninf, val q => if 0 ≤ q then ninf else inf
  | val _, inf => val 0
  | val _, ninf => val 0
  | val a, val b =>
      if b = 0 then (if a = 0 then nan else if 0 < a then inf else ninf)
      else val (a / b)

/-- IEEE strict less-than: every comparison involving NaN is false. -/
def lt : PF → PF → Bool
  | nan, _ => false
  | _, nan => false
  | inf, _ => false
  | ninf, ninf => false
  | ninf, _ => true
  | val _, inf => true
  | val _, ninf => false
  | val a, val b => decide (a < b)

/-- IEEE less-or-equal: every comparison involving NaN is false. -/
def le : PF → PF → Bool
  | nan, _ => false
  | _, nan => false
  | inf, inf => true
  | inf, _ => false
  | ninf, _ => true
  | val _, inf => true
  | val _, ninf => false
  | val a, val b => decide (a ≤ b)

/-- `np.sqrt`: NaN for NaN or negative arguments, `inf` for `+inf`,
`ratSqrt` (an arbitrary fixed computable square-root approximation) for
finite nonnegative arguments. -/
def sqrt : PF → PF
  | nan => nan
  | inf => inf
  | ninf => nan
  | val q => if q < 0 then nan else val (ratSqrt q)

end PF

/-- `np.nansum` over a 1-D array: NaN entries contribute zero;
summation is a left fold starting from `0`, as in numpy's accumulation. -/
def pfNansum (l : List PF) : PF :=
  (l.map (fun v => if v.isnan then PF.val 0 else v)).foldl PF.add (PF.val 0)

/-- Plain left-fold sum (numpy `np.sum` / `np.mean` numerator). -/
def pfSum (l : List PF) : PF := l.foldl PF.add (PF.val 0)

/-- `np.mean` over a 1-D array: sum divided by length; `np.mean([])` is NaN
(`0 / 0`). -/
def pfMean (l : List PF) : PF := PF.div (pfSum l) (PF.val (l.length : ℚ))

/--
`euclidean_distance(q1, q2)` from both
`src/pose_editor/core/triangulation.py` and
`src/pose_editor/pose2sim/triangulate_point.py` (the two files contain the
same function verbatim), in its 1-D branch, which is the only branch
exercised by the triangulation code (both callers always pass flat 2-point
tuples):

    dist = q2 - q1
    if np.isnan(dist).all():
        dist = np.empty_like(dist); dist[...] = np.inf
    euc_dist = np.sqrt(np.nansum([d**2 for d in dist]))

Numpy's subtraction broadcasts a length-1 operand against the other; with
two different lengths both `> 1` it raises a `ValueError`, a case no call
in the repository reaches (both callers pass length-2 tuples); that
unreachable branch is modelled by the empty difference.
-/
def euclidean_distance (q1 q2 : List PF) : PF :=
  let dist :=
    if q1.length = q2.length then List.zipWith PF.sub q2 q1
    else if q1.length = 1 then q2.map (fun b => PF.sub b (q1.getD 0 PF.nan))
    else if q2.length = 1 then q1.map (fun a => PF.sub (q2.getD 0 PF.nan) a)
    else []
  let dist := if dist.all PF.isnan then dist.map (fun _ => PF.inf) else dist
  PF.sqrt (pfNansum (dist.map (fun d => PF.mul d d)))

/-- Sum of the squares of the non-NaN entries only (the quantity the spec
says `euclidean_distance` takes the square root of when some components of
the difference are NaN). -/
def sumSquaresNonNan (dist : List PF) : PF :=
  pfSum ((dist.filter (fun d => !d.isnan)).map (fun d => PF.mul d d))

example : euclidean_distance [PF.val 3, PF.val 4] [PF.val 0, PF.val 0] = PF.val 5 := by decide

example : euclidean_distance [PF.nan, PF.nan] [PF.val 0, PF.val 0] = PF.inf := by decide

example : euclidean_distance [PF.nan, PF.val 4] [PF.val 0, PF.val 0] = PF.val 4 := by decide

theorem PF.add_val_zero (x : PF) : PF.add x (PF.val 0) = x := by
  cases x <;> simp [PF.add]

theorem PF.isnan_mul_self (d : PF) : (PF.mul d d).isnan = d.isnan := by
  cases d with
  | val q =>
      simp only [PF.mul, PF.isnan]
  | _ => rfl

theorem foldl_add_skipnan (l : List PF) (acc : PF) :
    (l.map (fun v => if v.isnan then PF.val 0 else v)).foldl PF.add acc
      = (l.filter (fun v => !v.isnan)).foldl PF.add acc := by
  induction l generalizing acc with
  | nil => rfl
  | cons h t ih =>
      cases hh : h.isnan with
      | true => simp [hh, PF.add_val_zero, ih]
      | false => simp [hh, ih]

theorem foldl_add_inf_const (t : List PF) :
    (t.map (fun _ => PF.inf)).foldl PF.add PF.inf = PF.inf := by
  induction t with
  | nil => rfl
  | cons h t ih => simpa [PF.add] using ih

/-- The squared entries of the NaN-free filtering of a list sum (via
`np.nansum` on the unfiltered squares) to the same value: NaN entries of
the difference contribute exactly zero. -/
theorem pfNansum_squares_eq_sumSquaresNonNan (dist : List PF) :
    pfNansum (dist.map (fun d => PF.mul d d)) = sumSquaresNonNan dist := by
  unfold pfNansum sumSquaresNonNan pfSum
  rw [foldl_add_skipnan]
  congr 1
  induction dist with
  | nil => rfl
  | cons h t ih =>
      cases hh : h.isnan with
      | true =>
          have : (PF.mul h h).isnan = true := by rw [PF.isnan_mul_self]; exact hh
          simp [List.filter, hh, this, ih]
      | false =>
          have : (PF.mul h h).isnan = false := by rw [PF.isnan_mul_self]; exact hh
          simp [List.filter, hh, this, ih]

/-- A sum (left fold by IEEE addition, starting from `0`) of squares of
finite values is a finite nonnegative value. -/
theorem foldl_add_squares_finite (l : List PF) (hfin : ∀ d ∈ l, ∃ q : ℚ, d = PF.val q)
    (acc : ℚ) (hacc : 0 ≤ acc) :
    ∃ s : ℚ, 0 ≤ s ∧ (l.map (fun d => PF.mul d d)).foldl PF.add (PF.val acc) = PF.val s := by
  induction l generalizing acc with
  | nil => exact ⟨acc, hacc, rfl⟩
  | cons h t ih =>
      obtain ⟨q, rfl⟩ := hfin h (List.mem_cons_self h t)
      have hsq : PF.add (PF.val acc) (PF.mul (PF.val q) (PF.val q)) = PF.val (acc + q * q) := by
        simp [PF.mul, PF.add]
      have h0 : 0 ≤ acc + q * q := by nlinarith [mul_self_nonneg q]
      have := ih (fun d hd => hfin d (List.mem_cons_of_mem _ hd)) (acc + q * q) h0
      simpa [hsq] using this

/-- C9: when the componentwise difference of the two (nonempty,
equal-dimension) operand points is entirely NaN, `euclidean_distance`
replaces it by `+inf` componentwise and returns `+Infinity`, never zero. -/
theorem C9_euclidean_distance_allnan_is_inf (q1 q2 : List PF)
    (hlen : q1.length = q2.length) (hne : q1 ≠ [])
    (hnan : (List.zipWith PF.sub q2 q1).all PF.isnan = true) :
    euclidean_distance q1 q2 = PF.inf ∧ euclidean_distance q1 q2 ≠ PF.val 0 := by
  have hmain : euclidean_distance q1 q2 = PF.inf := by
    unfold euclidean_distance
    have hz : (List.zipWith PF.sub q2 q1).length = q1.length := by
      rw [List.length_zipWith, hlen, Nat.min_self]
    simp only [hlen, if_pos rfl, hnan, if_true]
    rw [List.map_map]
    have hcomp : ((fun d => PF.mul d d) ∘ fun _ => PF.inf) = (fun (_ : PF) => PF.inf) := by
      funext d
      simp [Function.comp, PF.mul]
    rw [hcomp]
    cases hzw : List.zipWith PF.sub q2 q1 with
    | nil =>
        exfalso
        apply hne
        have := hz
        rw [hzw] at this
        exact List.length_eq_zero.mp this.symm
    | cons d ds =>
        show PF.sqrt (pfNansum (PF.inf :: ds.map (fun _ => PF.inf))) = PF.inf
        unfold pfNansum
        simp only [List.map_cons, List.map_map]
        have hcomp2 : ((fun v => if v.isnan then PF.val 0 else v) ∘ fun (_ : PF) => PF.inf)
            = (fun (_ : PF) => PF.inf) := by
          funext d
          simp [Function.comp, PF.isnan]
        rw [hcomp2]
        show PF.sqrt ((ds.map (fun _ => PF.inf)).foldl PF.add
          (PF.add (PF.val 0) ((fun v => if v.isnan then PF.val 0 else v) PF.inf))) = PF.inf
        simp only [PF.isnan, if_false, Bool.false_eq_true]
        show PF.sqrt ((ds.map (fun _ => PF.inf)).foldl PF.add PF.inf) = PF.inf
        rw [foldl_add_inf_const]
        rfl
  refine ⟨hmain, ?_⟩
  rw [hmain]
  intro h
  exact PF.noConfusion h

/-- C10: when the componentwise difference is NaN in some but not all
components, `euclidean_distance` returns the square root of the sum of
squares of just the non-NaN components (NaN components contribute zero);
if the non-NaN components are finite the result is a finite value, not NaN
and not `±Infinity`. -/
theorem C10_euclidean_distance_mixed_nan (q1 q2 : List PF)
    (hlen : q1.length = q2.length)
    (hnot : ¬ (List.zipWith PF.sub q2 q1).all PF.isnan = true) :
    euclidean_distance q1 q2
        = PF.sqrt (sumSquaresNonNan (List.zipWith PF.sub q2 q1)) ∧
      ((∀ d ∈ List.zipWith PF.sub q2 q1, d.isnan = false → ∃ q : ℚ, d = PF.val q) →
        ∃ q : ℚ, 0 ≤ q ∧ euclidean_distance q1 q2 = PF.val (ratSqrt q)) := by
  have hb : (List.zipWith PF.sub q2 q1).all PF.isnan = false := by
    cases h : (List.zipWith PF.sub q2 q1).all PF.isnan with
    | true => exact absurd h hnot
    | false => rfl
  have hmain : euclidean_distance q1 q2
      = PF.sqrt (sumSquaresNonNan (List.zipWith PF.sub q2 q1)) := by
    unfold euclidean_distance
    rw [if_pos hlen]
    simp only [hb, Bool.false_eq_true, if_false]
    rw [pfNansum_squares_eq_sumSquaresNonNan]
  refine ⟨hmain, fun hfin => ?_⟩
  have hfilt : ∀ d ∈ (List.zipWith PF.sub q2 q1).filter (fun v => !v.isnan),
      ∃ q : ℚ, d = PF.val q := by
    intro d hd
    have hmem := List.mem_of_mem_filter hd
    have hprop := List.of_mem_filter hd
    have : d.isnan = false := by
      cases h : d.isnan with
      | true => rw [h] at hprop; exact absurd hprop (by decide)
      | false => rfl
    exact hfin d hmem this
  obtain ⟨s, hs0, hs⟩ := foldl_add_squares_finite _ hfilt 0 le_rfl
  refine ⟨s, hs0, ?_⟩
  rw [hmain]
  unfold sumSquaresNonNan pfSum at *
  rw [hs]
  simp [PF.sqrt, not_lt.mpr hs0]

/-! ## Vectors, matrices, and the numerical oracles -/

/-- A 3-vector of scalars. -/
structure V3 where
  x : PF
  y : PF
  z : PF
deriving DecidableEq, Repr

/-- A 4-vector of scalars (a row of a 3×4 projection matrix, or a
homogeneous 3D point). -/
structure V4 where
  a : PF
  b : PF
  c : PF
  d : PF
deriving DecidableEq, Repr

/-- A 3×3 matrix (camera intrinsics, or a rotation matrix). -/
structure M33 where
  r0 : V3
  r1 : V3
  r2 : V3
deriving DecidableEq, Repr

/-- A 3×4 matrix (a camera projection matrix `P = K @ [R | t]`). -/
structure M34 where
  r0 : V4
  r1 : V4
  r2 : V4
deriving DecidableEq, Repr

def V4.pointwiseSub (u v : V4) : V4 :=
  ⟨u.a.sub v.a, u.b.sub v.b, u.c.sub v.c, u.d.sub v.d⟩

/-- Scalar-times-row, `s * v` (numpy broadcasting). -/
def V4.smulLeft (s : PF) (v : V4) : V4 :=
  ⟨s.mul v.a, s.mul v.b, s.mul v.c, s.mul v.d⟩

/-- Row-times-scalar, `v * s` (numpy broadcasting). -/
def V4.smulRight (v : V4) (s : PF) : V4 :=
  ⟨v.a.mul s, v.b.mul s, v.c.mul s, v.d.mul s⟩

/-- `row @ Q`: dot product, accumulated left to right. -/
def V4.dot (u v : V4) : PF :=
  (((u.a.mul v.a).add (u.b.mul v.b)).add (u.c.mul v.c)).add (u.d.mul v.d)

def M34.zero : M34 :=
  ⟨⟨PF.val 0, PF.val 0, PF.val 0, PF.val 0⟩,
   ⟨PF.val 0, PF.val 0, PF.val 0, PF.val 0⟩,
   ⟨PF.val 0, PF.val 0, PF.val 0, PF.val 0⟩⟩

/-- `np.hstack((R, t))`: glue a 3-vector as a fourth column onto a 3×3
matrix. -/
def hstackRt (R : M33) (t : V3) : M34 :=
  ⟨⟨R.r0.x, R.r0.y, R.r0.z, t.x⟩,
   ⟨R.r1.x, R.r1.y, R.r1.z, t.y⟩,
   ⟨R.r2.x, R.r2.y, R.r2.z, t.z⟩⟩

/-- One row of the matrix product `K @ Rt`. -/
def mulRowM34 (k : V3) (Rt : M34) : V4 :=
  ⟨((k.x.mul Rt.r0.a).add (k.y.mul Rt.r1.a)).add (k.z.mul Rt.r2.a),
   ((k.x.mul Rt.r0.b).add (k.y.mul Rt.r1.b)).add (k.z.mul Rt.r2.b),
   ((k.x.mul Rt.r0.c).add (k.y.mul Rt.r1.c)).add (k.z.mul Rt.r2.c),
   ((k.x.mul Rt.r0.d).add (k.y.mul Rt.r1.d)).add (k.z.mul Rt.r2.d)⟩

/-- Matrix product `K @ Rt` of a 3×3 with a 3×4 matrix. -/
def M33.matmulM34 (K : M33) (Rt : M34) : M34 :=
  ⟨mulRowM34 K.r0 Rt, mulRowM34 K.r1 Rt, mulRowM34 K.r2 Rt⟩

/-- `np.isnan(Q).any()` for a homogeneous point. -/
def V4.isnanAny (Q : V4) : Bool :=
  Q.a.isnan || Q.b.isnan || Q.c.isnan || Q.d.isnan

/--
`weighted_triangulation(P_all, x_all, y_all, likelihood_all)` from
`src/pose_editor/core/triangulation.py` (the function in
`src/pose_editor/pose2sim/triangulate_point.py` is identical):

    A = np.empty((0, 4))
    for c in range(len(x_all)):
        P_cam = P_all[c]
        A = np.vstack((A, (P_cam[0] - x_all[c] * P_cam[2]) * likelihood_all[c]))
        A = np.vstack((A, (P_cam[1] - y_all[c] * P_cam[2]) * likelihood_all[c]))
    if np.shape(A)[0] >= 4:
        S, U, Vt = cv2.SVDecomp(A)
        V = Vt.T
        Q = np.array([V[0][3]/V[3][3], V[1][3]/V[3][3], V[2][3]/V[3][3], 1])
    else:
        Q = np.array([np.nan, np.nan, np.nan, 1])
    return Q

The SVD is a numerical black box; the `svd` oracle argument maps the
assembled matrix `A` to the last column `(V[0][3], V[1][3], V[2][3],
V[3][3])` of `V = Vt.T`.  Out-of-range indexing (possible in Python only
when `y_all`, `likelihood_all` or `P_all` are shorter than `x_all`, which
raises `IndexError` and never happens in the two callers) is modelled with
default values via `getD`.
-/
def weighted_triangulation (P_all : List M34) (x_all y_all likelihood_all : List PF)
    (svd : List V4 → V4) : V4 :=
  let A := (List.range x_all.length).flatMap (fun c =>
    let P := P_all.getD c M34.zero
    let w := likelihood_all.getD c PF.nan
    [(P.r0.pointwiseSub (V4.smulLeft (x_all.getD c PF.nan) P.r2)).smulRight w,
     (P.r1.pointwiseSub (V4.smulLeft (y_all.getD c PF.nan) P.r2)).smulRight w])
  if 4 ≤ A.length then
    let v := svd A
    ⟨v.a.div v.d, v.b.div v.d, v.c.div v.d, PF.val 1⟩
  else
    ⟨PF.nan, PF.nan, PF.nan, PF.val 1⟩

/--
`reprojection(P_all, Q)` from `src/pose_editor/core/triangulation.py`
(identical in `src/pose_editor/pose2sim/triangulate_point.py`): per
camera, `x_calc = P[0]@Q / (P[2]@Q)` and `y_calc = P[1]@Q / (P[2]@Q)`.
-/
def reprojection (P_all : List M34) (Q : V4) : List PF × List PF :=
  (P_all.map (fun P => (P.r0.dot Q).div (P.r2.dot Q)),
   P_all.map (fun P => (P.r1.dot Q).div (P.r2.dot Q)))

/-- The rows of `A` come in pairs, so `A` has `2 * len(x_all)` rows. -/
theorem weighted_triangulation_rows {α : Type} (n : ℕ)
    (f : ℕ → List α) (hf : ∀ c, (f c).length = 2) :
    ((List.range n).flatMap f).length = 2 * n := by
  rw [List.length_flatMap]
  have h : List.map (List.length ∘ f) (List.range n)
      = List.map (fun _ => 2) (List.range n) :=
    List.map_congr_left (fun c _ => hf c)
  rw [h, List.map_const', List.sum_replicate, smul_eq_mul, List.length_range, Nat.mul_comm]

/-- C8: a call of `weighted_triangulation` on fewer than 2 camera
observations (so the coefficient matrix `A` gets fewer than 4 rows, which
presupposes the parallel input lists are long enough for `A` to be
assembled at all) returns the all-NaN-coordinates sentinel point, for
every possible SVD outcome — i.e. without the decomposition being able to
influence the result. -/
theorem C8_weighted_triangulation_short_input_sentinel
    (P_all : List M34) (x_all y_all likelihood_all : List PF) (svd : List V4 → V4)
    (hshort : x_all.length < 2)
    (hP : x_all.length ≤ P_all.length) (hy : x_all.length ≤ y_all.length)
    (hw : x_all.length ≤ likelihood_all.length) :
    weighted_triangulation P_all x_all y_all likelihood_all svd
      = ⟨PF.nan, PF.nan, PF.nan, PF.val 1⟩ := by
  unfold weighted_triangulation
  rw [if_neg]
  intro hge
  rw [weighted_triangulation_rows x_all.length
    (fun c =>
      let P := P_all.getD c M34.zero
      let w := likelihood_all.getD c PF.nan
      [(P.r0.pointwiseSub (V4.smulLeft (x_all.getD c PF.nan) P.r2)).smulRight w,
       (P.r1.pointwiseSub (V4.smulLeft (y_all.getD c PF.nan) P.r2)).smulRight w])
    (fun c => rfl)] at hge
  omega

/-- Witness for C8: a single observation with consistent list lengths
produces the sentinel. -/
theorem C8_witness :
    weighted_triangulation [M34.zero] [PF.val 10] [PF.val 20] [PF.val 1]
        (fun _ => ⟨PF.val 1, PF.val 1, PF.val 1, PF.val 1⟩)
      = ⟨PF.nan, PF.nan, PF.nan, PF.val 1⟩ :=
  C8_weighted_triangulation_short_input_sentinel [M34.zero] [PF.val 10] [PF.val 20]
    [PF.val 1] (fun _ => ⟨PF.val 1, PF.val 1, PF.val 1, PF.val 1⟩)
    (by decide) (by decide) (by decide) (by decide)

/-! ## Python `min` / numpy `argmin` over 1-D float data -/

/-- Shared scan for Python's `min` and numpy's `argmin` on NaN-free data:
walk the tail keeping the first position at which the running minimum was
attained (`if x < best: best = x`). -/
def pyminIdxAux : List PF → ℕ → ℕ → PF → ℕ × PF
  | [], _, bi, bv => (bi, bv)
  | x :: t, i, bi, bv =>
      if PF.lt x bv then pyminIdxAux t (i + 1) i x else pyminIdxAux t (i + 1) bi bv

/-- Python `min(list)` on floats: sequential scan replacing the running
best whenever `x < best`.  `min([])` raises `ValueError` in Python; the
source only calls it on nonempty lists, and the `[]` case is an arbitrary
placeholder. -/
def pymin (l : List PF) : PF :=
  match l with
  | [] => PF.nan
  | h :: t => (pyminIdxAux t 1 0 h).2

/-- `np.argmin`: index of the first NaN when one is present, otherwise the
first index attaining the minimum.  `np.argmin([])` raises in Python; the
source only calls it on nonempty lists. -/
def npArgmin (l : List PF) : ℕ :=
  match l.findIdx? PF.isnan with
  | some i => i
  | none =>
      match l with
      | [] => 0
      | h :: t => (pyminIdxAux t 1 0 h).1

/-- `np.nanmin`: minimum ignoring NaN entries; NaN (plus a runtime
warning) when every entry is NaN. -/
def npNanmin (l : List PF) : PF :=
  match l.filter (fun v => !v.isnan) with
  | [] => PF.nan
  | h :: t => (pyminIdxAux t 1 0 h).2

/-- Scan for `np.nanargmin`: first index attaining the minimum over the
non-NaN entries. -/
def nanargminGo : List PF → ℕ → Option (ℕ × PF) → Option ℕ
  | [], _, acc => acc.map (fun p => p.1)
  | x :: t, i, acc =>
      if x.isnan then nanargminGo t (i + 1) acc
      else
        match acc with
        | none => nanargminGo t (i + 1) (some (i, x))
        | some (bi, bv) =>
            if PF.lt x bv then nanargminGo t (i + 1) (some (i, x))
            else nanargminGo t (i + 1) (some (bi, bv))

/-- `np.nanargmin`: index of the minimum ignoring NaNs; `none` models the
`ValueError` numpy raises when every entry is NaN (or the list is empty). -/
def npNanargmin (l : List PF) : Option ℕ := nanargminGo l 0 none

/-- `np.min` over a flattened array: NaN propagates (any NaN entry makes
the result NaN); empty input raises in numpy (unreachable in the embedded
calls, placeholder NaN). -/
def npMin (l : List PF) : PF :=
  if l.any PF.isnan then PF.nan else pymin l

/-! ## The core selector: `triangulate_point` (`core/triangulation.py`) -/

/-- One 2D observation `(x, y, likelihood)` as stored per camera in
`points_2d_by_camera`. -/
structure Obs where
  x : PF
  y : PF
  q : PF
deriving DecidableEq, Repr

/-- One calibration entry: intrinsic `matrix`, axis-angle `rotation`,
`translation`.  (The optional distortion coefficients are never read by
`triangulate_point`.) -/
structure Calib where
  K : M33
  rot : V3
  t : V3
deriving DecidableEq, Repr

/-- `P = K @ np.hstack((cv2.Rodrigues(rotation)[0], translation))`, with
`cv2.Rodrigues` as an oracle from the axis-angle vector to a 3×3 matrix. -/
def mkProjection (rodrigues : V3 → M33) (c : Calib) : M34 :=
  c.K.matmulM34 (hstackRt (rodrigues c.rot) c.t)

/-- The per-camera unpacking and quality filter of `triangulate_point`
(step 1): cameras in dictionary (insertion) order; a camera is kept when
it has a calibration entry and `point_2d[2] >= min_quality` (false for NaN
quality, as in IEEE).  Kept cameras carry `(x, y, likelihood, P)`; the
source appends NaN/0/None placeholders for dropped cameras and filters
the `None` projection matrices out immediately afterwards, which the
`Option` models. -/
def coreRawEntries (cams : List (String × Obs)) (calibs : List (String × Calib))
    (min_quality : PF) (rodrigues : V3 → M33) : List (Option (PF × PF × PF × M34)) :=
  cams.map (fun c =>
    match calibs.lookup c.1 with
    | some cal =>
        if PF.le min_quality c.2.q then some (c.2.x, c.2.y, c.2.q, mkProjection rodrigues cal)
        else none
    | none => none)

/-- Number of quality-passing, calibrated observations (the length of
`valid_indices`). -/
def validObservationCount (cams : List (String × Obs)) (calibs : List (String × Calib))
    (min_quality : PF) (rodrigues : V3 → M33) : ℕ :=
  ((coreRawEntries cams calibs min_quality rodrigues).filterMap id).length

/-- All `k`-element ascending combinations of a list, in the order
`itertools.combinations` yields them. -/
def combinations : ℕ → List ℕ → List (List ℕ)
  | 0, _ => [[]]
  | _ + 1, [] => []
  | r + 1, x :: xs => ((combinations r xs).map (fun t => x :: t)) ++ combinations (r + 1) xs

/-- The body of the inner `for cam_indices in it.combinations(...)` loop of
`triangulate_point` for one combination `idxs` of kept-camera indices:
gather the per-camera slices, triangulate, skip the combination when the
triangulated point has any NaN component, otherwise reproject and return
the triangulated point together with the mean reprojection error. -/
def evalConfig (pm : List M34) (x y q : List PF) (svd : List V4 → V4)
    (idxs : List ℕ) : Option (V4 × PF) :=
  let Pc := idxs.map (fun i => pm.getD i M34.zero)
  let xc := idxs.map (fun i => x.getD i PF.nan)
  let yc := idxs.map (fun i => y.getD i PF.nan)
  let qc := idxs.map (fun i => q.getD i PF.nan)
  let Q := weighted_triangulation Pc xc yc qc svd
  if Q.isnanAny then none
  else
    let rp := reprojection Pc Q
    let errors := List.zipWith
      (fun qf qc2 => euclidean_distance [qf.1, qf.2] [qc2.1, qc2.2])
      (xc.zip yc) (rp.1.zip rp.2)
    some (Q, pfMean errors)

/-- All evaluated configurations at cameras-off level `off` (combinations
of `n - off` kept cameras, minus the empty combination and those skipped
for a NaN triangulation), each with its triangulated point and mean
error. -/
def levelConfigs (pm : List M34) (x y q : List PF) (svd : List V4 → V4)
    (n off : ℕ) : List (List ℕ × V4 × PF) :=
  (combinations (n - off) (List.range n)).filterMap (fun idxs =>
    if idxs.isEmpty then none
    else
      match evalConfig pm x y q svd idxs with
      | none => none
      | some (Q, e) => some (idxs, Q, e))

/-- Mutable state of the camera-removal search loop: the running global
best error (`error_min`, initially `inf`), the best triangulation and its
camera indices (`Q_best` / `best_cam_indices`, initially `None`), plus a
history of every `(cameras_off_level, mean_error)` pair evaluated so far
(a proof artifact: the source evaluates these values in this order but
does not store them). -/
structure CoreState where
  errorMin : PF
  best : Option (List ℕ × V4)
  trace : List (ℕ × PF)
deriving DecidableEq, Repr

/-- The body of one `while` iteration of `triangulate_point` at level
`off` (everything between computing `error_configs` and the
threshold/`continue` decision): append the evaluated errors to the trace
and, when `min(error_configs) < error_min`, update `error_min`, `Q_best`
and `best_cam_indices` with the `np.argmin` entry.  When no configuration
was evaluated the state is unchanged (the `continue` path). -/
def levelStep (pm : List M34) (x y q : List PF) (svd : List V4 → V4)
    (n off : ℕ) (st : CoreState) : CoreState :=
  let evals := levelConfigs pm x y q svd n off
  if evals.isEmpty then st
  else
    let errs := evals.map (fun e => e.2.2)
    let minErr := pymin errs
    let st1 : CoreState :=
      ⟨st.errorMin, st.best, st.trace ++ evals.map (fun e => (off, e.2.2))⟩
    if PF.lt minErr st1.errorMin then
      let bi := npArgmin errs
      ⟨minErr, some ((evals.getD bi ([], ⟨PF.nan, PF.nan, PF.nan, PF.nan⟩, PF.nan)).1,
        (evals.getD bi ([], ⟨PF.nan, PF.nan, PF.nan, PF.nan⟩, PF.nan)).2.1), st1.trace⟩
    else st1

/-- The `while n_cams - nb_cams_off >= min_cameras` search loop of
`triangulate_point`, advancing `off = nb_cams_off` by one per iteration.
`none` models the `ValueError` Python raises when `it.combinations` gets
a negative size (reachable only when `min_cameras < 0`), and is also the
out-of-fuel value; `coreLoop_total` below shows fuel `n + 2` always
suffices when `min_cameras ≥ 0`. -/
def coreLoop (pm : List M34) (x y q : List PF) (svd : List V4 → V4)
    (n : ℕ) (minc : ℤ) (thr : PF) : ℕ → ℕ → CoreState → Option CoreState
  | 0, _, _ => none
  | fuel + 1, off, st =>
      if minc ≤ (n : ℤ) - (off : ℤ) then
        if (n : ℤ) - (off : ℤ) < 0 then none
        else
          let st2 := levelStep pm x y q svd n off st
          if (levelConfigs pm x y q svd n off).isEmpty then
            coreLoop pm x y q svd n minc thr fuel (off + 1) st2
          else if PF.lt st2.errorMin thr then some st2
          else coreLoop pm x y q svd n minc thr fuel (off + 1) st2
      else some st

/-- The valid (quality-passing, calibrated) cameras of one
`triangulate_point` call, compressed into the parallel arrays
`valid_camera_names`, `x`, `y`, `quality`, `proj_matrices` (step 1 of the
source, after dropping `None` projection entries). -/
structure ValidArrays where
  names : List String
  x : List PF
  y : List PF
  q : List PF
  pm : List M34
deriving DecidableEq, Repr

def coreValidArrays (cams : List (String × Obs)) (calibs : List (String × Calib))
    (min_quality : PF) (rodrigues : V3 → M33) : ValidArrays :=
  let raw := coreRawEntries cams calibs min_quality rodrigues
  let kept := ((cams.map (fun c => c.1)).zip raw).filterMap
    (fun p => p.2.map (fun v => (p.1, v)))
  ⟨kept.map (fun k => k.1),
   kept.map (fun k => k.2.1),
   kept.map (fun k => k.2.2.1),
   kept.map (fun k => k.2.2.2.1),
   kept.map (fun k => k.2.2.2.2)⟩

/-- `TriangulationOutput` from `core/triangulation.py`. -/
structure TriangulationOutput where
  point_3d : V3
  contributing_cameras : List String
  reprojection_error : PF
deriving DecidableEq, Repr

/-- How one `triangulate_point` call ended: early `None` return for too
few valid observations (no search), a Python exception (reachable only
with a negative `min_cameras`), or a completed search with its final
state. -/
inductive CoreRun where
  | insufficient : CoreRun
  | crashed : CoreRun
  | finished : CoreState → CoreRun
deriving DecidableEq, Repr

/-- The observable result of `triangulate_point`: a Python exception,
`None`, or a `TriangulationOutput`. -/
inductive CoreResult where
  | crash : CoreResult
  | noresult : CoreResult
  | ok : TriangulationOutput → CoreResult
deriving DecidableEq, Repr

/--
`triangulate_point(points_2d_by_camera, calibration_by_camera,
min_cameras, reproj_error_threshold, min_quality)` from
`src/pose_editor/core/triangulation.py`, run up to the end of the search
loop.  Inputs: the two dictionaries as association lists in insertion
order, the three configuration scalars, and the two numerical oracles.
-/
def triangulate_point_run (cams : List (String × Obs)) (calibs : List (String × Calib))
    (minc : ℤ) (thr min_quality : PF) (svd : List V4 → V4) (rodrigues : V3 → M33) :
    CoreRun :=
  if ((validObservationCount cams calibs min_quality rodrigues : ℤ)) < minc then
    CoreRun.insufficient
  else
    match coreLoop (coreValidArrays cams calibs min_quality rodrigues).pm
        (coreValidArrays cams calibs min_quality rodrigues).x
        (coreValidArrays cams calibs min_quality rodrigues).y
        (coreValidArrays cams calibs min_quality rodrigues).q svd
        (coreValidArrays cams calibs min_quality rodrigues).names.length minc thr
        ((coreValidArrays cams calibs min_quality rodrigues).names.length + 2) 0
        ⟨PF.inf, none, []⟩ with
    | none => CoreRun.crashed
    | some st => CoreRun.finished st

/-- Step 3 of `triangulate_point` (output formatting): `None` when
`Q_best is None or error_min > reproj_error_threshold`, otherwise the
`TriangulationOutput` with the first three components of `Q_best`, the
winning camera names, and the winning mean error. -/
def triangulate_point (cams : List (String × Obs)) (calibs : List (String × Calib))
    (minc : ℤ) (thr min_quality : PF) (svd : List V4 → V4) (rodrigues : V3 → M33) :
    CoreResult :=
  match triangulate_point_run cams calibs minc thr min_quality svd rodrigues with
  | CoreRun.insufficient => CoreResult.noresult
  | CoreRun.crashed => CoreResult.crash
  | CoreRun.finished st =>
      match st.best with
      | none => CoreResult.noresult
      | some (idxs, Q) =>
          if PF.lt thr st.errorMin then CoreResult.noresult
          else
            CoreResult.ok
              ⟨⟨Q.a, Q.b, Q.c⟩,
               idxs.map (fun i =>
                 (coreValidArrays cams calibs min_quality rodrigues).names.getD i ""),
               st.errorMin⟩

/-- The `(cameras_off_level, mean_error)` pairs evaluated by the search of
one `triangulate_point` call, in evaluation order (empty when no search
ran). -/
def triangulate_point_trace (cams : List (String × Obs)) (calibs : List (String × Calib))
    (minc : ℤ) (thr min_quality : PF) (svd : List V4 → V4) (rodrigues : V3 → M33) :
    List (ℕ × PF) :=
  match triangulate_point_run cams calibs minc thr min_quality svd rodrigues with
  | CoreRun.finished st => st.trace
  | _ => []

/-! ### A concrete instance used by witnesses and counterexamples -/

/-- Identity 3×3 matrix. -/
def idM33 : M33 :=
  ⟨⟨PF.val 1, PF.val 0, PF.val 0⟩,
   ⟨PF.val 0, PF.val 1, PF.val 0⟩,
   ⟨PF.val 0, PF.val 0, PF.val 1⟩⟩

/-- A calibration with identity intrinsics, zero rotation and translation
`(0, 0, 1)`: its projection matrix maps the homogeneous origin to image
point `(0, 0)`. -/
def exCalib : Calib := ⟨idM33, ⟨PF.val 0, PF.val 0, PF.val 0⟩, ⟨PF.val 0, PF.val 0, PF.val 1⟩⟩

/-- Observation `(3, 4)` with full confidence: reprojection error against
image point `(0, 0)` is exactly `5`. -/
def exObs : Obs := ⟨PF.val 3, PF.val 4, PF.val 1⟩

def exCams : List (String × Obs) := [("A", exObs), ("B", exObs), ("C", exObs)]

def exCalibs : List (String × Calib) := [("A", exCalib), ("B", exCalib), ("C", exCalib)]

/-- SVD oracle answering `(0, 0, 0, 1)` for every system: every
triangulated point is the world origin. -/
def exSvd : List V4 → V4 := fun _ => ⟨PF.val 0, PF.val 0, PF.val 0, PF.val 1⟩

/-- Rodrigues oracle answering the identity rotation. -/
def exRod : V3 → M33 := fun _ => idM33

example :
    triangulate_point exCams exCalibs 2 (PF.val 10) (PF.val (1/2)) exSvd exRod
      = CoreResult.ok ⟨⟨PF.val 0, PF.val 0, PF.val 0⟩, ["A", "B", "C"], PF.val 5⟩ := by
  decide

/-! ## Order lemmas on the float model -/

theorem PF.lt_nonnan {a b : PF} (h : PF.lt a b = true) :
    a.isnan = false ∧ b.isnan = false := by
  cases a <;> cases b <;> simp_all [PF.lt, PF.isnan]

theorem PF.le_nonnan {a b : PF} (h : PF.le a b = true) :
    a.isnan = false ∧ b.isnan = false := by
  cases a <;> cases b <;> simp_all [PF.le, PF.isnan]

theorem PF.lt_imp_le {a b : PF} (h : PF.lt a b = true) : PF.le a b = true := by
  cases a <;> cases b <;> simp_all [PF.lt, PF.le]
  exact le_of_lt h

theorem PF.le_rfl' {a : PF} (h : a.isnan = false) : PF.le a a = true := by
  cases a <;> simp_all [PF.le, PF.isnan]

theorem PF.le_trans' {a b c : PF} (h1 : PF.le a b = true) (h2 : PF.le b c = true) :
    PF.le a c = true := by
  cases a <;> cases b <;> cases c <;> simp_all [PF.le]
  exact le_trans h1 h2

theorem PF.le_lt_trans' {a b c : PF} (h1 : PF.le a b = true) (h2 : PF.lt b c = true) :
    PF.lt a c = true := by
  cases a <;> cases b <;> cases c <;> simp_all [PF.le, PF.lt]
  exact lt_of_le_of_lt h1 h2

theorem PF.not_lt_imp_le {a b : PF} (ha : a.isnan = false) (hb : b.isnan = false)
    (h : PF.lt a b = false) : PF.le b a = true := by
  cases a <;> cases b <;> simp_all [PF.lt, PF.le, PF.isnan]

theorem PF.le_imp_not_lt {a b : PF} (h : PF.le a b = true) : PF.lt b a = false := by
  cases a <;> cases b <;> simp_all [PF.le, PF.lt]

theorem PF.le_inf' {a : PF} (h : a.isnan = false) : PF.le a PF.inf = true := by
  cases a <;> simp_all [PF.le, PF.isnan]

/-- What a mean reprojection error can be: a finite value or `+inf`
(never NaN, never `-inf`). -/
def ErrVal (e : PF) : Prop := (∃ q : ℚ, e = PF.val q) ∨ e = PF.inf

theorem ErrVal.not_isnan {e : PF} (h : ErrVal e) : e.isnan = false := by
  rcases h with ⟨q, rfl⟩ | rfl <;> rfl

theorem ErrVal.inf : ErrVal PF.inf := Or.inr rfl

/-! ## Specification of the `min`/`argmin` scan -/

theorem getD_append_length {α : Type} (l : List α) (c : α) (r : List α) (d : α) :
    (l ++ c :: r).getD l.length d = c := by
  induction l with
  | nil => rfl
  | cons h t ih => simpa using ih

theorem getD_append_left {α : Type} (l r : List α) (i : ℕ) (d : α) (h : i < l.length) :
    (l ++ r).getD i d = l.getD i d := by
  induction l generalizing i with
  | nil => simp at h
  | cons a t ih =>
      cases i with
      | zero => rfl
      | succ j => simpa using ih j (by simpa using h)

theorem pyminIdxAux_spec (t : List PF) :
    ∀ (done : List PF) (bi : ℕ) (bv : PF),
      (∀ e ∈ t, e.isnan = false) → bv.isnan = false →
      bi < done.length → done.getD bi PF.nan = bv → bv ∈ done →
      (∀ e ∈ done, PF.le bv e = true) →
      (pyminIdxAux t done.length bi bv).1 < (done ++ t).length ∧
      (done ++ t).getD (pyminIdxAux t done.length bi bv).1 PF.nan
        = (pyminIdxAux t done.length bi bv).2 ∧
      (pyminIdxAux t done.length bi bv).2 ∈ done ++ t ∧
      (pyminIdxAux t done.length bi bv).2.isnan = false ∧
      (∀ e ∈ done ++ t, PF.le (pyminIdxAux t done.length bi bv).2 e = true) := by
  induction t with
  | nil =>
      intro done bi bv _ hbv hbi hget hmem hle
      simp only [pyminIdxAux, List.append_nil]
      exact ⟨hbi, hget, hmem, hbv, hle⟩
  | cons c t ih =>
      intro done bi bv hnn hbv hbi hget hmem hle
      have hcnn : c.isnan = false := hnn c (List.mem_cons_self c t)
      have htnn : ∀ e ∈ t, e.isnan = false := fun e he => hnn e (List.mem_cons_of_mem _ he)
      have hassoc : done ++ c :: t = (done ++ [c]) ++ t := by simp
      rw [hassoc]
      show (pyminIdxAux (c :: t) done.length bi bv).1 < ((done ++ [c]) ++ t).length ∧ _
      unfold pyminIdxAux
      cases hlt : PF.lt c bv with
      | true =>
          simp only [if_pos rfl]
          have hlen : done.length + 1 = (done ++ [c]).length := by simp
          rw [hlen]
          refine ih (done ++ [c]) done.length c htnn hcnn (by simp) ?_ (by simp) ?_
          · exact getD_append_length done c [] PF.nan
          · intro e he
            rcases List.mem_append.mp he with hd | hc
            · exact PF.le_trans' (PF.lt_imp_le hlt) (hle e hd)
            · rw [List.mem_singleton.mp hc]
              exact PF.le_rfl' hcnn
      | false =>
          simp only [Bool.false_eq_true, if_false]
          have hlen : done.length + 1 = (done ++ [c]).length := by simp
          rw [hlen]
          refine ih (done ++ [c]) bi bv htnn hbv (by simp; omega) ?_ (by simp [hmem]) ?_
          · rw [getD_append_left done [c] bi PF.nan hbi]
            exact hget
          · intro e he
            rcases List.mem_append.mp he with hd | hc
            · exact hle e hd
            · rw [List.mem_singleton.mp hc]
              exact PF.not_lt_imp_le hcnn hbv hlt

theorem pymin_spec (l : List PF) (hl : l ≠ []) (hnn : ∀ e ∈ l, e.isnan = false) :
    pymin l ∈ l ∧ (pymin l).isnan = false ∧ ∀ e ∈ l, PF.le (pymin l) e = true := by
  match l, hl with
  | h :: t, _ =>
      have hh : h.isnan = false := hnn h (List.mem_cons_self h t)
      have htnn : ∀ e ∈ t, e.isnan = false := fun e he => hnn e (List.mem_cons_of_mem _ he)
      have := pyminIdxAux_spec t [h] 0 h htnn hh (by simp) (by rfl) (by simp)
        (by intro e he; rw [List.mem_singleton.mp he]; exact PF.le_rfl' hh)
      simp only [List.singleton_append, List.length_singleton] at this
      exact ⟨this.2.2.1, this.2.2.2.1, this.2.2.2.2⟩

theorem npArgmin_spec (l : List PF) (hl : l ≠ []) (hnn : ∀ e ∈ l, e.isnan = false) :
    npArgmin l < l.length ∧ l.getD (npArgmin l) PF.nan = pymin l := by
  have hfind : l.findIdx? PF.isnan = none := by
    rw [List.findIdx?_eq_none_iff]
    intro e he
    simp [hnn e he]
  match l, hl with
  | h :: t, _ =>
      have hh : h.isnan = false := hnn h (List.mem_cons_self h t)
      have htnn : ∀ e ∈ t, e.isnan = false := fun e he => hnn e (List.mem_cons_of_mem _ he)
      have hspec := pyminIdxAux_spec t [h] 0 h htnn hh (by simp) (by rfl) (by simp)
        (by intro e he; rw [List.mem_singleton.mp he]; exact PF.le_rfl' hh)
      simp only [List.singleton_append, List.length_singleton] at hspec
      constructor
      · show (match (h :: t).findIdx? PF.isnan with
          | some i => i
          | none => (pyminIdxAux t 1 0 h).1) < (h :: t).length
        rw [hfind]
        exact hspec.1
      · show (h :: t).getD (match (h :: t).findIdx? PF.isnan with
          | some i => i
          | none => (pyminIdxAux t 1 0 h).1) PF.nan = pymin (h :: t)
        rw [hfind]
        exact hspec.2.1

/-! ## Error values are finite-or-infinite, never NaN -/

/-- Nonnegative-or-infinite scalar (any partial sum of squares). -/
def NNVal (e : PF) : Prop := e = PF.inf ∨ ∃ q : ℚ, e = PF.val q ∧ 0 ≤ q

theorem NNVal.add {a b : PF} (ha : NNVal a) (hb : NNVal b) : NNVal (PF.add a b) := by
  rcases ha with rfl | ⟨p, rfl, hp⟩ <;> rcases hb with rfl | ⟨r, rfl, hr⟩
  · exact Or.inl rfl
  · exact Or.inl rfl
  · exact Or.inl rfl
  · exact Or.inr ⟨p + r, rfl, by linarith⟩

theorem NNVal.square_entry (d : PF) :
    NNVal (if (PF.mul d d).isnan then PF.val 0 else PF.mul d d) := by
  cases d with
  | nan => exact Or.inr ⟨0, rfl, le_refl 0⟩
  | inf => exact Or.inl rfl
  | ninf => exact Or.inl rfl
  | val q =>
      right
      exact ⟨q * q, by simp [PF.mul, PF.isnan], mul_self_nonneg q⟩

theorem foldl_add_squares_NN (l : List PF) :
    ∀ acc : PF, NNVal acc →
      NNVal (((l.map (fun d => PF.mul d d)).map
        (fun v => if v.isnan then PF.val 0 else v)).foldl PF.add acc) := by
  induction l with
  | nil => intro acc hacc; exact hacc
  | cons d t ih =>
      intro acc hacc
      simp only [List.map_cons, List.foldl_cons]
      exact ih _ (hacc.add (NNVal.square_entry d))

theorem sqrt_nansum_squares_errval (dist : List PF) :
    ErrVal (PF.sqrt (pfNansum (dist.map (fun d => PF.mul d d)))) := by
  have h := foldl_add_squares_NN dist (PF.val 0) (Or.inr ⟨0, rfl, le_refl 0⟩)
  unfold pfNansum
  rcases h with heq | ⟨q, heq, hq⟩ <;> rw [heq]
  · exact Or.inr rfl
  · exact Or.inl ⟨ratSqrt q, by simp [PF.sqrt, not_lt.mpr hq]⟩

/-- Every `euclidean_distance` result is a finite value or `+inf`. -/
theorem euclidean_distance_errval (q1 q2 : List PF) : ErrVal (euclidean_distance q1 q2) := by
  unfold euclidean_distance
  exact sqrt_nansum_squares_errval _

theorem pfSum_errval (l : List PF) (h : ∀ e ∈ l, ErrVal e) : ErrVal (pfSum l) := by
  unfold pfSum
  suffices hgen : ∀ acc : PF, ErrVal acc → ErrVal (l.foldl PF.add acc) by
    exact hgen (PF.val 0) (Or.inl ⟨0, rfl⟩)
  induction l with
  | nil => intro acc hacc; exact hacc
  | cons e t ih =>
      intro acc hacc
      simp only [List.foldl_cons]
      have he : ErrVal e := h e (List.mem_cons_self e t)
      have : ErrVal (PF.add acc e) := by
        rcases hacc with ⟨p, rfl⟩ | rfl <;> rcases he with ⟨r, rfl⟩ | rfl
        · exact Or.inl ⟨p + r, rfl⟩
        · exact Or.inr rfl
        · exact Or.inr rfl
        · exact Or.inr rfl
      exact ih (fun e' he' => h e' (List.mem_cons_of_mem _ he')) _ this

theorem pfMean_errval (l : List PF) (h : ∀ e ∈ l, ErrVal e) (hne : l ≠ []) :
    ErrVal (pfMean l) := by
  unfold pfMean
  have hlen : (0 : ℚ) < (l.length : ℚ) := by
    have : 0 < l.length := List.length_pos.mpr hne
    exact_mod_cast this
  rcases pfSum_errval l h with ⟨s, hs⟩ | hs <;> rw [hs]
  · exact Or.inl ⟨s / l.length, by simp [PF.div, ne_of_gt hlen]⟩
  · exact Or.inr (by simp [PF.div, le_of_lt hlen])

/-! ## Facts about one evaluated configuration -/

/-- With fewer than 2 observations `A` has fewer than 4 rows and the
triangulation is the NaN sentinel, whatever the SVD oracle does. -/
theorem weighted_triangulation_sentinel_of_short
    (P_all : List M34) (x_all y_all likelihood_all : List PF) (svd : List V4 → V4)
    (hshort : x_all.length < 2) :
    weighted_triangulation P_all x_all y_all likelihood_all svd
      = ⟨PF.nan, PF.nan, PF.nan, PF.val 1⟩ := by
  unfold weighted_triangulation
  rw [if_neg]
  intro hge
  rw [weighted_triangulation_rows x_all.length
    (fun c =>
      let P := P_all.getD c M34.zero
      let w := likelihood_all.getD c PF.nan
      [(P.r0.pointwiseSub (V4.smulLeft (x_all.getD c PF.nan) P.r2)).smulRight w,
       (P.r1.pointwiseSub (V4.smulLeft (y_all.getD c PF.nan) P.r2)).smulRight w])
    (fun c => rfl)] at hge
  omega

/-- Every element of a `zipWith` is the image of members of the two
lists. -/
theorem mem_zipWith_exists {α β γ : Type} (f : α → β → γ) :
    ∀ (l1 : List α) (l2 : List β), ∀ c ∈ List.zipWith f l1 l2,
      ∃ a b, a ∈ l1 ∧ b ∈ l2 ∧ c = f a b := by
  intro l1
  induction l1 with
  | nil => intro l2 c hc; simp at hc
  | cons a t ih =>
      intro l2 c hc
      cases l2 with
      | nil => simp at hc
      | cons b t2 =>
          rcases List.mem_cons.mp hc with hc | hc
          · exact ⟨a, b, List.mem_cons_self _ _, List.mem_cons_self _ _, hc⟩
          · obtain ⟨a', b', ha', hb', hc'⟩ := ih t2 c hc
            exact ⟨a', b', List.mem_cons_of_mem _ ha', List.mem_cons_of_mem _ hb', hc'⟩


theorem ite_d_val1 (c : Prop) [Decidable c] (u v : V4)
    (hu : u.d = PF.val 1) (hv : v.d = PF.val 1) : (if c then u else v).d = PF.val 1 := by
  split
  · exact hu
  · exact hv

/-- The homogeneous coordinate of every triangulated point is literally
`1` (both branches of `weighted_triangulation` end the array with `1`). -/
theorem weighted_triangulation_d
    (P_all : List M34) (x_all y_all likelihood_all : List PF) (svd : List V4 → V4) :
    (weighted_triangulation P_all x_all y_all likelihood_all svd).d = PF.val 1 := by
  unfold weighted_triangulation
  exact ite_d_val1 _ _ _ rfl rfl

theorem evalConfig_some_facts {pm : List M34} {x y q : List PF} {svd : List V4 → V4}
    {idxs : List ℕ} {Q : V4} {e : PF}
    (h : evalConfig pm x y q svd idxs = some (Q, e)) :
    2 ≤ idxs.length ∧ ErrVal e ∧ Q.d = PF.val 1 := by
  unfold evalConfig at h
  cases hq : (weighted_triangulation (idxs.map (fun i => pm.getD i M34.zero))
      (idxs.map (fun i => x.getD i PF.nan)) (idxs.map (fun i => y.getD i PF.nan))
      (idxs.map (fun i => q.getD i PF.nan)) svd).isnanAny with
  | true =>
      simp only [hq, eq_self_iff_true, if_true] at h
      exact Option.noConfusion h
  | false =>
      simp only [hq, Bool.false_eq_true, if_false] at h
      injection h with hp
      injection hp with hQ he
      subst hQ
      subst he
      have hlen2 : 2 ≤ idxs.length := by
        by_contra hlt
        push_neg at hlt
        have hshort : (idxs.map (fun i => x.getD i PF.nan)).length < 2 := by simpa using hlt
        rw [weighted_triangulation_sentinel_of_short _ _ _ _ _ hshort] at hq
        simp [V4.isnanAny, PF.isnan] at hq
      refine ⟨hlen2, ?_, weighted_triangulation_d _ _ _ _ _⟩
      apply pfMean_errval
      · intro e' he'
        obtain ⟨a, b, _, _, rfl⟩ := mem_zipWith_exists _ _ _ e' he'
        exact euclidean_distance_errval _ _
      · have hlen : (List.zipWith
            (fun qf qc2 => euclidean_distance [qf.1, qf.2] [qc2.1, qc2.2])
            ((idxs.map (fun i => x.getD i PF.nan)).zip (idxs.map (fun i => y.getD i PF.nan)))
            (((reprojection (idxs.map (fun i => pm.getD i M34.zero))
                (weighted_triangulation (idxs.map (fun i => pm.getD i M34.zero))
                  (idxs.map (fun i => x.getD i PF.nan)) (idxs.map (fun i => y.getD i PF.nan))
                  (idxs.map (fun i => q.getD i PF.nan)) svd)).1).zip
              ((reprojection (idxs.map (fun i => pm.getD i M34.zero))
                (weighted_triangulation (idxs.map (fun i => pm.getD i M34.zero))
                  (idxs.map (fun i => x.getD i PF.nan)) (idxs.map (fun i => y.getD i PF.nan))
                  (idxs.map (fun i => q.getD i PF.nan)) svd)).2))).length = idxs.length := by
          simp [reprojection]
        intro hnil
        rw [hnil] at hlen
        simp at hlen
        omega

theorem levelConfigs_mem_facts {pm : List M34} {x y q : List PF} {svd : List V4 → V4}
    {n off : ℕ} {c : List ℕ × V4 × PF}
    (hc : c ∈ levelConfigs pm x y q svd n off) :
    evalConfig pm x y q svd c.1 = some (c.2.1, c.2.2) ∧ 2 ≤ c.1.length ∧ ErrVal c.2.2 := by
  unfold levelConfigs at hc
  obtain ⟨idxs, _, hidxs⟩ := List.mem_filterMap.mp hc
  by_cases hempty : idxs.isEmpty = true
  · simp only [hempty, if_true] at hidxs
    exact absurd hidxs (by simp)
  · simp only [hempty, if_false] at hidxs
    cases heval : evalConfig pm x y q svd idxs with
    | none =>
        rw [heval] at hidxs
        exact absurd hidxs (by simp)
    | some Qe =>
        rw [heval] at hidxs
        have hc' : c = (idxs, Qe.1, Qe.2) := by
          cases Qe
          simpa using hidxs.symm
        subst hc'
        have heval' : evalConfig pm x y q svd idxs = some (Qe.1, Qe.2) := by
          rw [heval]
        have hfacts := evalConfig_some_facts heval'
        exact ⟨heval', hfacts.1, hfacts.2.1⟩

/-! ## The search-loop invariant -/

/-- Running minimum (strict-`<` fold from `inf`) of a list of errors. -/
def pfMinFold (l : List PF) : PF :=
  l.foldl (fun acc e => if PF.lt e acc then e else acc) PF.inf

/-- Best (lowest) mean error among the trace entries of cameras-off level
at most `k`. -/
def errMinUpTo (tr : List (ℕ × PF)) (k : ℕ) : PF :=
  pfMinFold ((tr.filter (fun p => p.1 ≤ k)).map (fun p => p.2))

theorem le_pfMinFold {m : PF} (hm : m.isnan = false) (l : List PF)
    (h : ∀ e ∈ l, PF.le m e = true) : PF.le m (pfMinFold l) = true := by
  unfold pfMinFold
  suffices hgen : ∀ acc, PF.le m acc = true →
      PF.le m (l.foldl (fun acc e => if PF.lt e acc then e else acc) acc) = true by
    exact hgen PF.inf (PF.le_inf' hm)
  induction l with
  | nil => intro acc hacc; exact hacc
  | cons e t ih =>
      intro acc hacc
      simp only [List.foldl_cons]
      have he := h e (List.mem_cons_self e t)
      refine ih (fun e' he' => h e' (List.mem_cons_of_mem _ he')) _ ?_
      by_cases hlt : PF.lt e acc = true
      · rw [if_pos hlt]; exact he
      · rw [if_neg hlt]; exact hacc

theorem getD_mem {α : Type} (l : List α) (i : ℕ) (d : α) (h : i < l.length) :
    l.getD i d ∈ l := by
  induction l generalizing i with
  | nil => simp at h
  | cons a t ih =>
      cases i with
      | zero => exact List.mem_cons_self _ _
      | succ j => exact List.mem_cons_of_mem _ (ih j (by simpa using h))

theorem getD_map_snd {α β : Type} (f : α → β) (l : List α) (i : ℕ) (d : α) (h : i < l.length) :
    (l.map f).getD i (f d) = f (l.getD i d) := by
  induction l generalizing i with
  | nil => simp at h
  | cons a t ih =>
      cases i with
      | zero => rfl
      | succ j => exact ih j (by simpa using h)

/-- Everything the search loop maintains about its mutable state: the
running best error is a real error value, is a lower bound for every
evaluated configuration so far, and — once `Q_best` is set — is the mean
error of the recorded best combination, which has at least two cameras
and appears in the trace. -/
def CoreInv (pm : List M34) (x y q : List PF) (svd : List V4 → V4) (st : CoreState) : Prop :=
  ErrVal st.errorMin ∧
  (∀ p ∈ st.trace, ErrVal p.2) ∧
  (∀ p ∈ st.trace, PF.le st.errorMin p.2 = true) ∧
  (match st.best with
   | none => st.errorMin = PF.inf
   | some (idxs, Q) =>
       evalConfig pm x y q svd idxs = some (Q, st.errorMin) ∧
       2 ≤ idxs.length ∧
       st.errorMin ∈ st.trace.map (fun p => p.2))

theorem levelStep_facts (pm : List M34) (x y q : List PF) (svd : List V4 → V4)
    (n off : ℕ) (st : CoreState)
    (hinv : CoreInv pm x y q svd st) (hlev : ∀ p ∈ st.trace, p.1 < off) :
    CoreInv pm x y q svd (levelStep pm x y q svd n off st) ∧
    (∀ p ∈ (levelStep pm x y q svd n off st).trace, p.1 < off + 1) ∧
    (∀ k, k < off →
      (levelStep pm x y q svd n off st).trace.filter (fun p => p.1 ≤ k)
        = st.trace.filter (fun p => p.1 ≤ k)) := by
  obtain ⟨hev, htev, hle, hbest⟩ := hinv
  by_cases hempty : (levelConfigs pm x y q svd n off).isEmpty = true
  · unfold levelStep
    rw [if_pos hempty]
    exact ⟨⟨hev, htev, hle, hbest⟩, fun p hp => Nat.lt_succ_of_lt (hlev p hp),
      fun k _ => rfl⟩
  · have hne : levelConfigs pm x y q svd n off ≠ [] := by
      intro hnil
      rw [hnil] at hempty
      exact hempty rfl
    set evals := levelConfigs pm x y q svd n off with hevals
    set errs := evals.map (fun e => e.2.2) with herrs
    have herrsne : errs ≠ [] := by
      intro hnil
      rw [herrs] at hnil
      exact hne (List.map_eq_nil_iff.mp hnil)
    have herrsev : ∀ e ∈ errs, ErrVal e := by
      intro e he
      rw [herrs] at he
      obtain ⟨c, hc, rfl⟩ := List.mem_map.mp he
      exact (levelConfigs_mem_facts hc).2.2
    have herrsnn : ∀ e ∈ errs, e.isnan = false := fun e he => (herrsev e he).not_isnan
    obtain ⟨hpm_mem, hpm_nn, hpm_le⟩ := pymin_spec errs herrsne herrsnn
    have htrace2ev : ∀ p ∈ st.trace ++ evals.map (fun e => (off, e.2.2)), ErrVal p.2 := by
      intro p hp
      rcases List.mem_append.mp hp with hp | hp
      · exact htev p hp
      · obtain ⟨c, hc, rfl⟩ := List.mem_map.mp hp
        exact (levelConfigs_mem_facts hc).2.2
    have htrace2lev : ∀ p ∈ st.trace ++ evals.map (fun e => (off, e.2.2)), p.1 < off + 1 := by
      intro p hp
      rcases List.mem_append.mp hp with hp | hp
      · exact Nat.lt_succ_of_lt (hlev p hp)
      · obtain ⟨c, _, rfl⟩ := List.mem_map.mp hp
        exact Nat.lt_succ_self off
    have hfilter2 : ∀ k, k < off →
        (st.trace ++ evals.map (fun e => (off, e.2.2))).filter (fun p => p.1 ≤ k)
          = st.trace.filter (fun p => p.1 ≤ k) := by
      intro k hk
      rw [List.filter_append]
      have : (evals.map (fun e => (off, e.2.2))).filter (fun p => p.1 ≤ k) = [] := by
        rw [List.filter_eq_nil_iff]
        intro p hp
        obtain ⟨c, _, rfl⟩ := List.mem_map.mp hp
        simp only [decide_eq_true_eq]
        omega
      rw [this, List.append_nil]
    unfold levelStep
    rw [if_neg hempty]
    rw [← hevals, ← herrs]
    by_cases hupd : PF.lt (pymin errs) st.errorMin = true
    · rw [if_pos hupd]
      set bi := npArgmin errs with hbi
      obtain ⟨hbilt, hbieq⟩ := npArgmin_spec errs herrsne herrsnn
      have hbilt2 : bi < evals.length := by
        rw [herrs] at hbilt
        simpa using hbilt
      have hc : evals.getD bi ([], ⟨PF.nan, PF.nan, PF.nan, PF.nan⟩, PF.nan) ∈ evals :=
        getD_mem _ _ _ hbilt2
      obtain ⟨hcfg, hclen, _⟩ := levelConfigs_mem_facts hc
      have hceq : (evals.getD bi ([], ⟨PF.nan, PF.nan, PF.nan, PF.nan⟩, PF.nan)).2.2
          = pymin errs := by
        rw [← hbieq, herrs]
        exact (getD_map_snd (fun e => e.2.2) evals bi
          ([], ⟨PF.nan, PF.nan, PF.nan, PF.nan⟩, PF.nan) hbilt2).symm
      refine ⟨⟨?_, ?_, ?_, ?_⟩, ?_, ?_⟩
      · exact herrsev _ hpm_mem
      · exact htrace2ev
      · intro p hp
        rcases List.mem_append.mp hp with hp | hp
        · exact PF.le_trans' (PF.lt_imp_le hupd) (hle p hp)
        · obtain ⟨c, hcm, rfl⟩ := List.mem_map.mp hp
          exact hpm_le _ (by rw [herrs]; exact List.mem_map_of_mem _ hcm)
      · show evalConfig pm x y q svd _ = some (_, pymin errs) ∧ _ ∧
          pymin errs ∈ (st.trace ++ evals.map (fun e => (off, e.2.2))).map (fun p => p.2)
        refine ⟨by rw [← hceq]; exact hcfg, hclen, ?_⟩
        rw [List.map_append]
        apply List.mem_append_right
        have : (evals.map (fun e => (off, e.2.2))).map (fun p => p.2) = errs := by
          rw [herrs, List.map_map]
          rfl
        rw [this]
        exact hpm_mem
      · exact htrace2lev
      · exact hfilter2
    · rw [if_neg hupd]
      have hminnn : (pymin errs).isnan = false := hpm_nn
      have hevnn : st.errorMin.isnan = false := hev.not_isnan
      have hle2 : PF.le st.errorMin (pymin errs) = true :=
        PF.not_lt_imp_le hminnn hevnn (by
          cases h : PF.lt (pymin errs) st.errorMin with
          | true => exact absurd h hupd
          | false => rfl)
      refine ⟨⟨hev, htrace2ev, ?_, ?_⟩, htrace2lev, hfilter2⟩
      · intro p hp
        rcases List.mem_append.mp hp with hp | hp
        · exact hle p hp
        · obtain ⟨c, hcm, rfl⟩ := List.mem_map.mp hp
          exact PF.le_trans' hle2
            (hpm_le _ (by rw [herrs]; exact List.mem_map_of_mem _ hcm))
      · show (match st.best with
          | none => st.errorMin = PF.inf
          | some (idxs, Q) =>
              evalConfig pm x y q svd idxs = some (Q, st.errorMin) ∧
              2 ≤ idxs.length ∧
              st.errorMin ∈ (st.trace ++ evals.map (fun e => (off, e.2.2))).map
                (fun p => p.2))
        cases hb : st.best with
        | none => rw [hb] at hbest; exact hbest
        | some pQ =>
            rw [hb] at hbest
            obtain ⟨idxs, Q⟩ := pQ
            obtain ⟨h1, h2, h3⟩ := hbest
            exact ⟨h1, h2, by rw [List.map_append]; exact List.mem_append_left _ h3⟩

theorem PF.lt_inf_left (b : PF) : PF.lt PF.inf b = false := by
  cases b <;> rfl

theorem levelStep_of_empty (pm : List M34) (x y q : List PF) (svd : List V4 → V4)
    (n off : ℕ) (st : CoreState)
    (h : (levelConfigs pm x y q svd n off).isEmpty = true) :
    levelStep pm x y q svd n off st = st := by
  unfold levelStep
  simp only [h, if_true]

/-- On entering a loop iteration, the best error over any level prefix of
the trace is not yet strictly below the threshold (otherwise the loop
would have stopped). -/
theorem entry_no_below (pm : List M34) (x y q : List PF) (svd : List V4 → V4)
    (thr : PF) (st : CoreState)
    (hinv : CoreInv pm x y q svd st)
    (hentry : st.trace = [] ∨ PF.lt st.errorMin thr = false)
    (k : ℕ) : PF.lt (errMinUpTo st.trace k) thr = false := by
  rcases hentry with he | he
  · rw [errMinUpTo, he]
    exact PF.lt_inf_left thr
  · have hle' : PF.le st.errorMin (errMinUpTo st.trace k) = true := by
      apply le_pfMinFold hinv.1.not_isnan
      intro e he'
      obtain ⟨p, hp, rfl⟩ := List.mem_map.mp he'
      exact hinv.2.2.1 p (List.mem_of_mem_filter hp)
    cases h : PF.lt (errMinUpTo st.trace k) thr with
    | true => exact absurd (PF.le_lt_trans' hle' h) (by simp [he])
    | false => rfl

/-- Induction along the search loop: the state invariant is preserved, and
the finished trace never contains an entry at a level strictly deeper than
one whose best-so-far error was already strictly below the threshold (the
greedy early exit). -/
theorem coreLoop_inv (pm : List M34) (x y q : List PF) (svd : List V4 → V4)
    (n : ℕ) (minc : ℤ) (thr : PF) :
    ∀ (fuel off : ℕ) (st st' : CoreState),
      coreLoop pm x y q svd n minc thr fuel off st = some st' →
      CoreInv pm x y q svd st →
      (∀ p ∈ st.trace, p.1 < off) →
      (st.trace = [] ∨ PF.lt st.errorMin thr = false) →
      CoreInv pm x y q svd st' ∧
      (∀ k, ∀ p ∈ st'.trace, k < p.1 → PF.lt (errMinUpTo st'.trace k) thr = false) := by
  intro fuel
  induction fuel with
  | zero =>
      intro off st st' hrun
      simp [coreLoop] at hrun
  | succ fuel ih =>
      intro off st st' hrun hinv hlev hentry
      unfold coreLoop at hrun
      by_cases hcond : minc ≤ (n : ℤ) - (off : ℤ)
      · rw [if_pos hcond] at hrun
        by_cases hneg : (n : ℤ) - (off : ℤ) < 0
        · rw [if_pos hneg] at hrun
          exact absurd hrun (by simp)
        · rw [if_neg hneg] at hrun
          obtain ⟨hinv2, hlev2, hfilt2⟩ := levelStep_facts pm x y q svd n off st hinv hlev
          by_cases hempty : (levelConfigs pm x y q svd n off).isEmpty = true
          · rw [if_pos hempty] at hrun
            rw [levelStep_of_empty pm x y q svd n off st hempty] at hrun
            exact ih (off + 1) st st' hrun hinv
              (fun p hp => Nat.lt_succ_of_lt (hlev p hp)) hentry
          · rw [if_neg hempty] at hrun
            by_cases hstop : PF.lt (levelStep pm x y q svd n off st).errorMin thr = true
            · rw [if_pos hstop] at hrun
              obtain rfl := (Option.some.inj hrun).symm
              refine ⟨hinv2, ?_⟩
              intro k p hp hk
              have hkoff : k < off := by
                have := hlev2 p hp
                omega
              have heq : errMinUpTo (levelStep pm x y q svd n off st).trace k
                  = errMinUpTo st.trace k := by
                unfold errMinUpTo
                rw [hfilt2 k hkoff]
              rw [heq]
              exact entry_no_below pm x y q svd thr st ⟨hinv.1, hinv.2.1, hinv.2.2.1,
                hinv.2.2.2⟩ hentry k
            · rw [if_neg hstop] at hrun
              refine ih (off + 1) (levelStep pm x y q svd n off st) st' hrun hinv2 hlev2 ?_
              right
              cases h : PF.lt (levelStep pm x y q svd n off st).errorMin thr with
              | true => exact absurd h hstop
              | false => rfl
      · rw [if_neg hcond] at hrun
        obtain rfl := (Option.some.inj hrun).symm
        refine ⟨hinv, ?_⟩
        intro k p hp _
        exact entry_no_below pm x y q svd thr _ hinv hentry k

/-- With a nonnegative camera floor the loop neither raises nor runs out
of fuel `n + 2`. -/
theorem coreLoop_total (pm : List M34) (x y q : List PF) (svd : List V4 → V4)
    (n : ℕ) (minc : ℤ) (thr : PF) (hminc : 0 ≤ minc) :
    ∀ (fuel off : ℕ) (st : CoreState),
      n + 2 ≤ fuel + off → off ≤ n + 1 →
      coreLoop pm x y q svd n minc thr fuel off st ≠ none := by
  intro fuel
  induction fuel with
  | zero =>
      intro off st hfuel hoff
      omega
  | succ fuel ih =>
      intro off st hfuel hoff
      unfold coreLoop
      by_cases hcond : minc ≤ (n : ℤ) - (off : ℤ)
      · rw [if_pos hcond]
        have hoffn : off ≤ n := by omega
        have hneg : ¬ ((n : ℤ) - (off : ℤ) < 0) := by omega
        rw [if_neg hneg]
        by_cases hempty : (levelConfigs pm x y q svd n off).isEmpty = true
        · rw [if_pos hempty]
          exact ih (off + 1) _ (by omega) (by omega)
        · rw [if_neg hempty]
          by_cases hstop : PF.lt (levelStep pm x y q svd n off st).errorMin thr = true
          · rw [if_pos hstop]
            simp
          · rw [if_neg hstop]
            exact ih (off + 1) _ (by omega) (by omega)
      · rw [if_neg hcond]
        simp

/-! ## Claims about the core selector -/

/-- Case analysis of a successful `triangulate_point` call. -/
theorem triangulate_point_ok_cases {cams : List (String × Obs)} {calibs : List (String × Calib)}
    {minc : ℤ} {thr minq : PF} {svd : List V4 → V4} {rod : V3 → M33} {o : TriangulationOutput}
    (hok : triangulate_point cams calibs minc thr minq svd rod = CoreResult.ok o) :
    ∃ st idxs Q,
      triangulate_point_run cams calibs minc thr minq svd rod = CoreRun.finished st ∧
      st.best = some (idxs, Q) ∧
      PF.lt thr st.errorMin = false ∧
      o = ⟨⟨Q.a, Q.b, Q.c⟩,
        idxs.map (fun i => (coreValidArrays cams calibs minq rod).names.getD i ""),
        st.errorMin⟩ := by
  unfold triangulate_point at hok
  split at hok
  · exact absurd hok (by simp)
  · exact absurd hok (by simp)
  next st heq =>
    split at hok
    · exact absurd hok (by simp)
    next idxs Q heq2 =>
      split at hok
      · exact absurd hok (by simp)
      next h3 =>
        refine ⟨st, idxs, Q, heq, heq2, by simpa using h3, ?_⟩
        injection hok with h1
        exact h1.symm

/-- A finished run satisfies the loop invariant and the early-exit
property. -/
theorem triangulate_point_run_finished {cams : List (String × Obs)}
    {calibs : List (String × Calib)} {minc : ℤ} {thr minq : PF}
    {svd : List V4 → V4} {rod : V3 → M33} {st : CoreState}
    (h : triangulate_point_run cams calibs minc thr minq svd rod = CoreRun.finished st) :
    CoreInv (coreValidArrays cams calibs minq rod).pm (coreValidArrays cams calibs minq rod).x
      (coreValidArrays cams calibs minq rod).y (coreValidArrays cams calibs minq rod).q svd st ∧
    (∀ k, ∀ p ∈ st.trace, k < p.1 → PF.lt (errMinUpTo st.trace k) thr = false) := by
  unfold triangulate_point_run at h
  split at h
  · exact absurd h (by simp)
  · split at h
    · exact absurd h (by simp)
    next st0 hloop =>
      injection h with h1
      subst h1
      exact coreLoop_inv _ _ _ _ _ _ _ _ _ _ _ _ hloop
        ⟨ErrVal.inf, by simp, by simp, rfl⟩ (by simp) (Or.inl rfl)

/-- The trace of a finished run is the final state's trace. -/
theorem triangulate_point_trace_finished {cams : List (String × Obs)}
    {calibs : List (String × Calib)} {minc : ℤ} {thr minq : PF}
    {svd : List V4 → V4} {rod : V3 → M33} {st : CoreState}
    (h : triangulate_point_run cams calibs minc thr minq svd rod = CoreRun.finished st) :
    triangulate_point_trace cams calibs minc thr minq svd rod = st.trace := by
  unfold triangulate_point_trace
  rw [h]

/-- C1: whenever `triangulate_point` returns a result, its reported mean
reprojection error is one of the mean errors evaluated during the search
and is a lower bound for every combination evaluated at every explored
cameras-off level — the best candidate is tracked globally across the
whole search, never reset per level. -/
theorem C1_core_returns_global_minimum (cams : List (String × Obs))
    (calibs : List (String × Calib)) (minc : ℤ) (thr minq : PF)
    (svd : List V4 → V4) (rod : V3 → M33) (o : TriangulationOutput)
    (hok : triangulate_point cams calibs minc thr minq svd rod = CoreResult.ok o) :
    o.reprojection_error ∈
      (triangulate_point_trace cams calibs minc thr minq svd rod).map (fun p => p.2) ∧
    ∀ e ∈ (triangulate_point_trace cams calibs minc thr minq svd rod).map (fun p => p.2),
      PF.le o.reprojection_error e = true := by
  obtain ⟨st, idxs, Q, hrun, hbest, _, ho⟩ := triangulate_point_ok_cases hok
  obtain ⟨hinv, _⟩ := triangulate_point_run_finished hrun
  rw [triangulate_point_trace_finished hrun]
  have hb := hinv.2.2.2
  rw [hbest] at hb
  obtain ⟨_, _, hmem⟩ := hb
  have herr : o.reprojection_error = st.errorMin := by rw [ho]
  rw [herr]
  exact ⟨hmem, fun e he => by
    obtain ⟨p, hp, rfl⟩ := List.mem_map.mp he
    exact hinv.2.2.1 p hp⟩

/-- Witness for C1 at a concrete successful call. -/
theorem C1_witness :
    (⟨⟨PF.val 0, PF.val 0, PF.val 0⟩, ["A", "B", "C"], PF.val 5⟩ :
        TriangulationOutput).reprojection_error ∈
      (triangulate_point_trace exCams exCalibs 2 (PF.val 10) (PF.val (1/2))
        exSvd exRod).map (fun p => p.2) ∧
    ∀ e ∈ (triangulate_point_trace exCams exCalibs 2 (PF.val 10) (PF.val (1/2))
        exSvd exRod).map (fun p => p.2),
      PF.le (⟨⟨PF.val 0, PF.val 0, PF.val 0⟩, ["A", "B", "C"], PF.val 5⟩ :
        TriangulationOutput).reprojection_error e = true :=
  C1_core_returns_global_minimum exCams exCalibs 2 (PF.val 10) (PF.val (1/2))
    exSvd exRod ⟨⟨PF.val 0, PF.val 0, PF.val 0⟩, ["A", "B", "C"], PF.val 5⟩ (by decide)

/-- C3: a successful result never uses fewer than 2 cameras, whatever the
configured `min_cameras` is (including values below 2): one-camera
subsets triangulate to the NaN sentinel and are skipped, so the winning
combination always has at least two contributing cameras. -/
theorem C3_core_never_fewer_than_two_cameras (cams : List (String × Obs))
    (calibs : List (String × Calib)) (minc : ℤ) (thr minq : PF)
    (svd : List V4 → V4) (rod : V3 → M33) (o : TriangulationOutput)
    (hok : triangulate_point cams calibs minc thr minq svd rod = CoreResult.ok o) :
    2 ≤ o.contributing_cameras.length := by
  obtain ⟨st, idxs, Q, hrun, hbest, _, ho⟩ := triangulate_point_ok_cases hok
  obtain ⟨hinv, _⟩ := triangulate_point_run_finished hrun
  have hb := hinv.2.2.2
  rw [hbest] at hb
  obtain ⟨_, hlen, _⟩ := hb
  have : o.contributing_cameras
      = idxs.map (fun i => (coreValidArrays cams calibs minq rod).names.getD i "") := by
    rw [ho]
  rw [this, List.length_map]
  exact hlen

/-- Witness for C3: the concrete successful call uses 3 ≥ 2 cameras. -/
theorem C3_witness :
    2 ≤ (⟨⟨PF.val 0, PF.val 0, PF.val 0⟩, ["A", "B", "C"], PF.val 5⟩ :
      TriangulationOutput).contributing_cameras.length :=
  C3_core_never_fewer_than_two_cameras exCams exCalibs 2 (PF.val 10) (PF.val (1/2))
    exSvd exRod ⟨⟨PF.val 0, PF.val 0, PF.val 0⟩, ["A", "B", "C"], PF.val 5⟩ (by decide)

/-- C4: with fewer quality-passing calibrated observations than
`min_cameras`, `triangulate_point` returns `None` immediately and no
combination is ever evaluated (empty search trace). -/
theorem C4_core_insufficient_immediate (cams : List (String × Obs))
    (calibs : List (String × Calib)) (minc : ℤ) (thr minq : PF)
    (svd : List V4 → V4) (rod : V3 → M33)
    (hfew : ((validObservationCount cams calibs minq rod : ℤ)) < minc) :
    triangulate_point cams calibs minc thr minq svd rod = CoreResult.noresult ∧
    triangulate_point_trace cams calibs minc thr minq svd rod = [] := by
  have hrun : triangulate_point_run cams calibs minc thr minq svd rod
      = CoreRun.insufficient := by
    unfold triangulate_point_run
    rw [if_pos hfew]
  constructor
  · unfold triangulate_point
    rw [hrun]
  · unfold triangulate_point_trace
    rw [hrun]

/-- Witness for C4: one valid camera with a floor of 2. -/
theorem C4_witness :
    triangulate_point [("A", exObs)] exCalibs 2 (PF.val 10) (PF.val (1/2)) exSvd exRod
        = CoreResult.noresult ∧
    triangulate_point_trace [("A", exObs)] exCalibs 2 (PF.val 10) (PF.val (1/2))
        exSvd exRod = [] :=
  C4_core_insufficient_immediate [("A", exObs)] exCalibs 2 (PF.val 10) (PF.val (1/2))
    exSvd exRod (by decide)

/-- Counterexample to C5 as stated: calling the core selector with three
identical cameras whose all-camera mean error is exactly the threshold
(`5`), the best error found at cameras-off level 0 satisfies
`error ≤ threshold`, yet combinations at level 1 (one more camera
removed) are still evaluated — the source breaks only on the strict
comparison `error_min < reproj_error_threshold`. -/
theorem C5_counterexample :
    PF.le (errMinUpTo (triangulate_point_trace exCams exCalibs 2 (PF.val 5)
        (PF.val (1/2)) exSvd exRod) 0) (PF.val 5) = true ∧
    (1, PF.val 5) ∈ triangulate_point_trace exCams exCalibs 2 (PF.val 5)
        (PF.val (1/2)) exSvd exRod := by
  decide

/-- C5 (amended): the greedy early exit is strict — whenever a
combination at cameras-off level `k'` was evaluated, the best error found
at every earlier level `k < k'` was NOT strictly below the threshold
(with best error exactly equal to the threshold the core selector keeps
removing cameras). -/
theorem C5_amended_strict_early_exit (cams : List (String × Obs))
    (calibs : List (String × Calib)) (minc : ℤ) (thr minq : PF)
    (svd : List V4 → V4) (rod : V3 → M33) (k k' : ℕ) (e' : PF)
    (hmem : (k', e') ∈ triangulate_point_trace cams calibs minc thr minq svd rod)
    (hk : k < k') :
    PF.lt (errMinUpTo (triangulate_point_trace cams calibs minc thr minq svd rod) k)
      thr = false := by
  cases hrun : triangulate_point_run cams calibs minc thr minq svd rod with
  | insufficient =>
      have : triangulate_point_trace cams calibs minc thr minq svd rod = [] := by
        unfold triangulate_point_trace
        rw [hrun]
      rw [this] at hmem
      simp at hmem
  | crashed =>
      have : triangulate_point_trace cams calibs minc thr minq svd rod = [] := by
        unfold triangulate_point_trace
        rw [hrun]
      rw [this] at hmem
      simp at hmem
  | finished st =>
      rw [triangulate_point_trace_finished hrun] at hmem ⊢
      exact (triangulate_point_run_finished hrun).2 k (k', e') hmem hk

/-- Witness for the amended C5 at the concrete threshold-equality call. -/
theorem C5_amended_witness :
    PF.lt (errMinUpTo (triangulate_point_trace exCams exCalibs 2 (PF.val 5)
      (PF.val (1/2)) exSvd exRod) 0) (PF.val 5) = false :=
  C5_amended_strict_early_exit exCams exCalibs 2 (PF.val 5) (PF.val (1/2))
    exSvd exRod 0 1 (PF.val 5) (by decide) (by decide)

/-! ## Reprojection consistency (C7) -/

/-- The winning camera indices of a call (empty when no search finished or
nothing was selected). -/
def triangulate_point_best_indices (cams : List (String × Obs))
    (calibs : List (String × Calib)) (minc : ℤ) (thr min_quality : PF)
    (svd : List V4 → V4) (rodrigues : V3 → M33) : List ℕ :=
  match triangulate_point_run cams calibs minc thr min_quality svd rodrigues with
  | CoreRun.finished st =>
      match st.best with
      | some (idxs, _) => idxs
      | none => []
  | _ => []

/-- Independent recomputation of the reported error: re-project the
returned 3D point (re-homogenised with `1`) through the projection matrix
of each contributing camera, take the Euclidean distance to that camera's
original 2D observation, and average. -/
def recomputeMeanError (pm : List M34) (x y : List PF) (idxs : List ℕ) (p : V3) : PF :=
  pfMean (idxs.map (fun i =>
    euclidean_distance [x.getD i PF.nan, y.getD i PF.nan]
      [((pm.getD i M34.zero).r0.dot ⟨p.x, p.y, p.z, PF.val 1⟩).div
          ((pm.getD i M34.zero).r2.dot ⟨p.x, p.y, p.z, PF.val 1⟩),
       ((pm.getD i M34.zero).r1.dot ⟨p.x, p.y, p.z, PF.val 1⟩).div
          ((pm.getD i M34.zero).r2.dot ⟨p.x, p.y, p.z, PF.val 1⟩)]))

theorem V4.eta_d1 (Q : V4) (h : Q.d = PF.val 1) :
    (⟨Q.a, Q.b, Q.c, PF.val 1⟩ : V4) = Q := by
  cases Q
  simp only at h
  rw [h]

/-- The mean error stored for a configuration is exactly what independent
reprojection of its triangulated point recomputes. -/
theorem evalConfig_mean_recompute {pm : List M34} {x y q : List PF} {svd : List V4 → V4}
    {idxs : List ℕ} {Q : V4} {e : PF}
    (h : evalConfig pm x y q svd idxs = some (Q, e)) :
    recomputeMeanError pm x y idxs ⟨Q.a, Q.b, Q.c⟩ = e := by
  unfold evalConfig at h
  cases hq : (weighted_triangulation (idxs.map (fun i => pm.getD i M34.zero))
      (idxs.map (fun i => x.getD i PF.nan)) (idxs.map (fun i => y.getD i PF.nan))
      (idxs.map (fun i => q.getD i PF.nan)) svd).isnanAny with
  | true =>
      simp only [hq, eq_self_iff_true, if_true] at h
      exact Option.noConfusion h
  | false =>
      simp only [hq, Bool.false_eq_true, if_false] at h
      injection h with hp
      injection hp with hQ he
      subst hQ
      subst he
      have hd := weighted_triangulation_d (idxs.map (fun i => pm.getD i M34.zero))
        (idxs.map (fun i => x.getD i PF.nan)) (idxs.map (fun i => y.getD i PF.nan))
        (idxs.map (fun i => q.getD i PF.nan)) svd
      unfold recomputeMeanError reprojection
      rw [V4.eta_d1 _ hd]
      congr 1
      rw [List.map_map, List.map_map, List.zip_map', List.zip_map', List.zipWith_map,
        List.zipWith_same]
      rfl

/-- C7: for every returned result, independently reprojecting its 3D
point through each contributing camera's projection matrix, computing the
Euclidean distance to that camera's original 2D observation, and
averaging over the contributing cameras reproduces the reported
`reprojection_error` exactly. -/
theorem C7_core_reprojection_consistency (cams : List (String × Obs))
    (calibs : List (String × Calib)) (minc : ℤ) (thr minq : PF)
    (svd : List V4 → V4) (rod : V3 → M33) (o : TriangulationOutput)
    (hok : triangulate_point cams calibs minc thr minq svd rod = CoreResult.ok o) :
    recomputeMeanError (coreValidArrays cams calibs minq rod).pm
        (coreValidArrays cams calibs minq rod).x (coreValidArrays cams calibs minq rod).y
        (triangulate_point_best_indices cams calibs minc thr minq svd rod) o.point_3d
      = o.reprojection_error := by
  obtain ⟨st, idxs, Q, hrun, hbest, _, ho⟩ := triangulate_point_ok_cases hok
  obtain ⟨hinv, _⟩ := triangulate_point_run_finished hrun
  have hb := hinv.2.2.2
  rw [hbest] at hb
  obtain ⟨hcfg, _, _⟩ := hb
  have hidx : triangulate_point_best_indices cams calibs minc thr minq svd rod = idxs := by
    unfold triangulate_point_best_indices
    rw [hrun]
    show (match st.best with
      | some (idxs, _) => idxs
      | none => []) = idxs
    rw [hbest]
  have hp3 : o.point_3d = ⟨Q.a, Q.b, Q.c⟩ := by rw [ho]
  have herr : o.reprojection_error = st.errorMin := by rw [ho]
  rw [hidx, hp3, herr]
  exact evalConfig_mean_recompute hcfg

/-- Witness for C7 at the concrete successful call. -/
theorem C7_witness :
    recomputeMeanError (coreValidArrays exCams exCalibs (PF.val (1/2)) exRod).pm
        (coreValidArrays exCams exCalibs (PF.val (1/2)) exRod).x
        (coreValidArrays exCams exCalibs (PF.val (1/2)) exRod).y
        (triangulate_point_best_indices exCams exCalibs 2 (PF.val 10) (PF.val (1/2))
          exSvd exRod)
        (⟨⟨PF.val 0, PF.val 0, PF.val 0⟩, ["A", "B", "C"], PF.val 5⟩ :
          TriangulationOutput).point_3d
      = (⟨⟨PF.val 0, PF.val 0, PF.val 0⟩, ["A", "B", "C"], PF.val 5⟩ :
          TriangulationOutput).reprojection_error :=
  C7_core_reprojection_consistency exCams exCalibs 2 (PF.val 10) (PF.val (1/2))
    exSvd exRod ⟨⟨PF.val 0, PF.val 0, PF.val 0⟩, ["A", "B", "C"], PF.val 5⟩ (by decide)

/-- Witness for C9: both coordinates of the difference NaN gives
`+Infinity`. -/
theorem C9_witness :
    euclidean_distance [PF.nan, PF.nan] [PF.val 0, PF.val 0] = PF.inf ∧
    euclidean_distance [PF.nan, PF.nan] [PF.val 0, PF.val 0] ≠ PF.val 0 :=
  C9_euclidean_distance_allnan_is_inf [PF.nan, PF.nan] [PF.val 0, PF.val 0]
    (by decide) (by decide) (by decide)

/-- Witness for C10: difference `[NaN, -4]` gives the finite value
`sqrt 16 = 4`, with the NaN component contributing zero. -/
theorem C10_witness :
    (euclidean_distance [PF.nan, PF.val 4] [PF.val 0, PF.val 0]
        = PF.sqrt (sumSquaresNonNan
            (List.zipWith PF.sub [PF.val 0, PF.val 0] [PF.nan, PF.val 4])) ∧
      ((∀ d ∈ List.zipWith PF.sub [PF.val 0, PF.val 0] [PF.nan, PF.val 4],
          d.isnan = false → ∃ q : ℚ, d = PF.val q) →
        ∃ q : ℚ, 0 ≤ q ∧
          euclidean_distance [PF.nan, PF.val 4] [PF.val 0, PF.val 0]
            = PF.val (ratSqrt q))) :=
  C10_euclidean_distance_mixed_nan [PF.nan, PF.val 4] [PF.val 0, PF.val 0]
    (by decide) (by decide)

/-! ## The pose2sim variant: `triangulation_from_best_cameras`
(`src/pose_editor/pose2sim/triangulate_point.py`)

The embedding specialises `undistort_points` to false: when the flag is
true the function merely builds four `calib_params_*_filt` lists that are
never read afterwards (every use is commented out in the source), so the
observable behaviour is identical.  Numpy's array aliasing in the
left/right-swap block is modelled faithfully: `[[x] * len(id_cams_swapped)
for x in x_filt]` makes every per-`id_swapped` row one and the same array
object as `x_filt[id_off]`, so the fancy-indexed writes accumulate across
swap combinations — after the write loop the first `n - nb_cams_off_tot`
positions of each row hold the swapped coordinates, every `id_swapped`
candidate reads that same fully-mutated array, and the corruption persists
into later `n_cams_swapped` iterations of the same level through
`x_filt`. -/

/-- `arr[id_cams_off[i]] = nan` (empty combination leaves the array
unchanged, which also covers the `nb_cams_off > 0` guard). -/
def maskNan (combo : List ℕ) (v : List PF) : List PF :=
  (List.range v.length).map (fun j => if j ∈ combo then PF.nan else v.getD j PF.nan)

/-- The per-camera keep test of the quality filter:
`not np.isnan(q) and not q == 0.0`. -/
def qualKeep (qf : List PF) (j : ℕ) : Bool :=
  !(qf.getD j PF.nan).isnan && !(decide (qf.getD j PF.nan = PF.val 0))

/-- `[xx for ii, xx in enumerate(v) if not isnan(q[ii]) and not q[ii] == 0]`. -/
def filterByQual (qf v : List PF) : List PF :=
  ((List.range v.length).filter (fun j => qualKeep qf j)).map (fun j => v.getD j PF.nan)

/-- Inputs of one `triangulation_from_best_cameras` call: the three
configuration values read from `config_dict`, the per-camera `(x, y,
likelihood)` coordinates, their left/right-swapped counterparts, and the
projection matrices. -/
structure P2SIn where
  thr : PF
  minc : ℤ
  handle : Bool
  coords : List (PF × PF × PF)
  coordsSw : List (PF × PF × PF)
  P : List M34
deriving Repr

def p2sX (I : P2SIn) : List PF := I.coords.map (fun c => c.1)
def p2sY (I : P2SIn) : List PF := I.coords.map (fun c => c.2.1)
def p2sQ (I : P2SIn) : List PF := I.coords.map (fun c => c.2.2)
def p2sXsw (I : P2SIn) : List PF := I.coordsSw.map (fun c => c.1)
def p2sYsw (I : P2SIn) : List PF := I.coordsSw.map (fun c => c.2.1)

/-- `n_cams = len(x)`. -/
def p2sN (I : P2SIn) : ℕ := I.coords.length

/-- Everything one cameras-off level of the outer loop computes before the
best-of-level selection. -/
structure P2SLevel where
  combosOff : List (List ℕ)
  C : ℕ
  qF0 : List (List PF)
  idOffTotNew : List (List ℕ)
  nbExclFilt : List ℕ
  offTot : ℕ
  xFilt : List (List PF)
  yFilt : List (List PF)
  xswFilt : List (List PF)
  yswFilt : List (List PF)
  qFilt : List (List PF)
  Qs : List V4
  errs : List PF
deriving Repr

def p2sLevel (I : P2SIn) (svd : List V4 → V4) (off : ℕ) : P2SLevel :=
  let nn := p2sN I
  let combosOff := combinations off (List.range nn)
  let C := combosOff.length
  let xF0 := combosOff.map (fun combo => maskNan combo (p2sX I))
  let yF0 := combosOff.map (fun combo => maskNan combo (p2sY I))
  let xswF0 := combosOff.map (fun combo => maskNan combo (p2sXsw I))
  let yswF0 := combosOff.map (fun combo => maskNan combo (p2sYsw I))
  let qF0 := combosOff.map (fun combo => maskNan combo (p2sQ I))
  let idOffTotNew := qF0.map (fun qf =>
    (List.range qf.length).filter (fun j => (qf.getD j PF.nan).isnan))
  let nbExclFilt := qF0.map (fun qf =>
    (qf.filter (fun v => v.isnan || decide (v = PF.val 0))).length)
  let offTot := nbExclFilt.foldl max 0
  let xFilt := (List.range C).map (fun i => filterByQual (qF0.getD i []) (xF0.getD i []))
  let yFilt := (List.range C).map (fun i => filterByQual (qF0.getD i []) (yF0.getD i []))
  let xswFilt := (List.range C).map (fun i => filterByQual (qF0.getD i []) (xswF0.getD i []))
  let yswFilt := (List.range C).map (fun i => filterByQual (qF0.getD i []) (yswF0.getD i []))
  let qFilt := qF0.map (fun qf => qf.filter (fun v => !v.isnan && !(decide (v = PF.val 0))))
  let Qs := (List.range C).map (fun i =>
    weighted_triangulation I.P (xFilt.getD i []) (yFilt.getD i []) (qFilt.getD i []) svd)
  let errs := (List.range C).map (fun i =>
    let Qi := Qs.getD i ⟨PF.nan, PF.nan, PF.nan, PF.nan⟩
    pfMean ((List.range (xFilt.getD i []).length).map (fun j =>
      euclidean_distance
        [(xFilt.getD i []).getD j PF.nan, (yFilt.getD i []).getD j PF.nan]
        [((reprojection I.P Qi).1).getD j PF.nan, ((reprojection I.P Qi).2).getD j PF.nan])))
  ⟨combosOff, C, qF0, idOffTotNew, nbExclFilt, offTot, xFilt, yFilt, xswFilt, yswFilt,
    qFilt, Qs, errs⟩

/-- The aliased fancy-indexed writes of one swap round on one row: every
position named by any swap combination receives the swapped coordinate. -/
def applySwaps (arr sw : List PF) (combos : List (List ℕ)) : List PF :=
  combos.foldl (fun a combo => combo.foldl (fun a2 j => a2.set j (sw.getD j PF.nan)) a) arr

/-- The `while error_off_swap_min > threshold and n_cams_swapped <
(n_cams - nb_cams_off_tot) / 2` loop of the left/right-swap resolver.
Returns the attempted `(remaining_cameras, n_cams_swapped)` rounds
appended to `trace`, the final `error_off_swap_min`, and the last round's
best `(id_off_cams, Q_best)` when at least one round ran. -/
def swapLoop (I : P2SIn) (svd : List V4 → V4) (m C : ℕ)
    (qFilt xswFilt yswFilt : List (List PF)) :
    ℕ → ℕ → List (List PF) → List (List PF) → PF → Option (ℕ × V3) →
    List (ℕ × ℕ) → List (ℕ × ℕ) × PF × Option (ℕ × V3)
  | 0, _, _, _, eosMin, swapBest, trace => (trace, eosMin, swapBest)
  | fuel + 1, k, xf, yf, eosMin, swapBest, trace =>
      if PF.lt I.thr eosMin = true ∧ 2 * k < m then
        let combosSw := combinations k (List.range m)
        let S := combosSw.length
        let xf2 := (List.range C).map (fun i => applySwaps (xf.getD i []) (xswFilt.getD i []) combosSw)
        let yf2 := (List.range C).map (fun i => applySwaps (yf.getD i []) (yswFilt.getD i []) combosSw)
        let Qsw := (List.range C).map (fun i =>
          weighted_triangulation I.P (xf2.getD i []) (yf2.getD i []) (qFilt.getD i []) svd)
        let errSw := (List.range C).map (fun i =>
          let Qi := Qsw.getD i ⟨PF.nan, PF.nan, PF.nan, PF.nan⟩
          pfMean ((List.range m).map (fun j =>
            euclidean_distance
              [(xf2.getD i []).getD j PF.nan, (yf2.getD i []).getD j PF.nan]
              [((reprojection I.P Qi).1).getD j PF.nan,
               ((reprojection I.P Qi).2).getD j PF.nan])))
        let flat := (List.range C).flatMap (fun i => List.replicate S (errSw.getD i PF.nan))
        let eosMin2 := npMin flat
        let idOff := npArgmin flat / S
        let Qb := Qsw.getD idOff ⟨PF.nan, PF.nan, PF.nan, PF.nan⟩
        swapLoop I svd m C qFilt xswFilt yswFilt fuel (k + 1) xf2 yf2 eosMin2
          (some (idOff, ⟨Qb.a, Qb.b, Qb.c⟩)) (trace ++ [(m, k)])
      else (trace, eosMin, swapBest)

/-- Mutable state of the outer cameras-off loop.  Variables Python leaves
unbound until first assignment (`best_cams`, `nb_cams_excluded`, `Q`,
`id_cams_off_tot`) are `Option`s; `swapTrace` records every attempted
swap round `(remaining_cameras, n_cams_swapped)` (a proof artifact). -/
structure P2SState where
  errorMin : PF
  bestCams : Option ℕ
  nbExcl : Option ℕ
  Q : Option V3
  idOffTot : Option (List (List ℕ))
  swapTrace : List (ℕ × ℕ)
deriving Repr

/-- How the outer loop ends: a Python exception (with the swap rounds
attempted so far), or normal exit with the final state. -/
inductive P2SOutcome where
  | crashed : List (ℕ × ℕ) → P2SOutcome
  | finished : P2SState → P2SOutcome
deriving Repr

/-- How one iteration body ends: `stop` is the `break` of line 164,
`boom` a Python exception carrying the swap rounds attempted so far,
`next` the state for the following iteration. -/
inductive P2SStepOut where
  | stop : P2SStepOut
  | boom : List (ℕ × ℕ) → P2SStepOut
  | next : P2SState → P2SStepOut
deriving Repr

/-- The tail of one outer-loop iteration after the left/right-swap
resolver ran: adopt the swapped best when `error_off_swap_min <
error_min`; a missing `swapBest` in that case is Python's `NameError`
(provably unreachable, since the comparison is irreflexive). -/
def p2sAfterSwap (errorMin1 : PF) (st1 : P2SState)
    (r : List (ℕ × ℕ) × PF × Option (ℕ × V3)) : P2SStepOut :=
  if PF.lt r.2.1 errorMin1 = true then
    match r.2.2 with
    | some ioQb =>
        P2SStepOut.next ⟨r.2.1, some ioQb.1, st1.nbExcl, some ioQb.2, st1.idOffTot, r.1⟩
    | none => P2SStepOut.boom r.1
  else P2SStepOut.next ⟨st1.errorMin, st1.bestCams, st1.nbExcl, st1.Q, st1.idOffTot, r.1⟩

/-- The per-level state update of lines 325-330 of the source:
`error_min = np.nanmin(error)`, `best_cams = np.nanargmin(error)`,
`nb_cams_excluded`, `Q`, and the retained `id_cams_off_tot`. -/
def p2sSelect (I : P2SIn) (svd : List V4 → V4) (off : ℕ) (st : P2SState)
    (bestC : ℕ) : P2SState :=
  ⟨npNanmin (p2sLevel I svd off).errs, some bestC,
   some ((p2sLevel I svd off).nbExclFilt.getD bestC 0),
   some ⟨((p2sLevel I svd off).Qs.getD bestC ⟨PF.nan, PF.nan, PF.nan, PF.nan⟩).a,
         ((p2sLevel I svd off).Qs.getD bestC ⟨PF.nan, PF.nan, PF.nan, PF.nan⟩).b,
         ((p2sLevel I svd off).Qs.getD bestC ⟨PF.nan, PF.nan, PF.nan, PF.nan⟩).c⟩,
   some (p2sLevel I svd off).idOffTotNew, st.swapTrace⟩

/-- The swap resolver invocation of one level, starting at
`n_cams_swapped = 1` from the level's filtered arrays. -/
def p2sSwapCall (I : P2SIn) (svd : List V4 → V4) (off : ℕ) (st : P2SState) :
    List (ℕ × ℕ) × PF × Option (ℕ × V3) :=
  swapLoop I svd (p2sN I - (p2sLevel I svd off).offTot) (p2sLevel I svd off).C
    (p2sLevel I svd off).qFilt (p2sLevel I svd off).xswFilt (p2sLevel I svd off).yswFilt
    (p2sN I - (p2sLevel I svd off).offTot + 1) 1
    (p2sLevel I svd off).xFilt (p2sLevel I svd off).yFilt
    (npNanmin (p2sLevel I svd off).errs) none st.swapTrace

/-- One full iteration body of the outer `while` loop (after its
condition held): raise on an empty combination list (`np.vstack([])`) or
an all-NaN error list (`np.nanargmin`), break when too many cameras are
excluded, otherwise select the level best and optionally run the swap
resolver. -/
def p2sStep (I : P2SIn) (svd : List V4 → V4) (off : ℕ) (st : P2SState) : P2SStepOut :=
  if (combinations off (List.range (p2sN I))).isEmpty then P2SStepOut.boom st.swapTrace
  else if ((p2sLevel I svd off).offTot : ℤ) > (p2sN I : ℤ) - I.minc then P2SStepOut.stop
  else
    match npNanargmin (p2sLevel I svd off).errs with
    | none => P2SStepOut.boom st.swapTrace
    | some bestC =>
        if I.handle = true ∧ PF.lt I.thr (npNanmin (p2sLevel I svd off).errs) = true then
          p2sAfterSwap (npNanmin (p2sLevel I svd off).errs)
            (p2sSelect I svd off st bestC) (p2sSwapCall I svd off st)
        else P2SStepOut.next (p2sSelect I svd off st bestC)

/-- The outer `while error_min > error_threshold_triangulation and
n_cams - nb_cams_off >= min_cameras_for_triangulation` loop. -/
def p2sLoop (I : P2SIn) (svd : List V4 → V4) : ℕ → ℕ → P2SState → P2SOutcome
  | 0, _, st => P2SOutcome.crashed st.swapTrace
  | fuel + 1, off, st =>
      if PF.lt I.thr st.errorMin = true ∧ I.minc ≤ (p2sN I : ℤ) - (off : ℤ) then
        match p2sStep I svd off st with
        | P2SStepOut.stop => P2SOutcome.finished st
        | P2SStepOut.boom tr => P2SOutcome.crashed tr
        | P2SStepOut.next st2 => p2sLoop I svd fuel (off + 1) st2
      else P2SOutcome.finished st

/-- The observable return value `(Q, error_min, nb_cams_excluded,
id_excluded_cams)`, or a Python exception. -/
inductive P2SResult where
  | crash : P2SResult
  | ok : V3 → PF → ℕ → List ℕ → P2SResult
deriving DecidableEq, Repr

/-- `id_excluded_cams`: `id_cams_off_tot[best_cams]` when `best_cams` was
ever assigned, otherwise `range(n_cams)`. -/
def p2sIdExcl (I : P2SIn) (st : P2SState) : List ℕ :=
  match st.bestCams with
  | some bc => (st.idOffTot.getD []).getD bc []
  | none => List.range (p2sN I)

/-- `nb_cams_excluded` at return: the assigned value, or `n_cams` when the
loop body never ran. -/
def p2sNbExcl (I : P2SIn) (st : P2SState) : ℕ :=
  match st.bestCams with
  | some _ => st.nbExcl.getD 0
  | none => p2sN I

/-- `triangulation_from_best_cameras(config_dict, coords_2D_kpt,
coords_2D_kpt_swapped, projection_matrices, calib_params)` with
`undistort_points = false`, paired with the list of attempted swap
rounds. -/
def triangulation_from_best_cameras (I : P2SIn) (svd : List V4 → V4) :
    List (ℕ × ℕ) × P2SResult :=
  match p2sLoop I svd (p2sN I + 2) 0 ⟨PF.inf, none, none, none, none, []⟩ with
  | P2SOutcome.crashed tr => (tr, P2SResult.crash)
  | P2SOutcome.finished st =>
      if PF.lt I.thr st.errorMin = true then
        (st.swapTrace,
         P2SResult.ok ⟨PF.nan, PF.nan, PF.nan⟩ PF.nan (p2sNbExcl I st) (p2sIdExcl I st))
      else
        match st.Q with
        | some Qv => (st.swapTrace, P2SResult.ok Qv st.errorMin (p2sNbExcl I st) (p2sIdExcl I st))
        | none => (st.swapTrace, P2SResult.crash)

/-- Projection matrix `[[1,0,0,0],[0,1,0,0],[0,0,1,1]]`: the camera at
`t = (0,0,1)` with identity intrinsics/rotation. -/
def exP : M34 :=
  ⟨⟨PF.val 1, PF.val 0, PF.val 0, PF.val 0⟩,
   ⟨PF.val 0, PF.val 1, PF.val 0, PF.val 0⟩,
   ⟨PF.val 0, PF.val 0, PF.val 1, PF.val 1⟩⟩

/-- Three identical cameras observing `(3, 4)` at quality 1 with a
threshold of `1` and swap handling on: every configuration (swapped or
not) has mean error `5 > 1`, so the swap resolver runs with
`n - excluded = 3` remaining cameras. -/
def exP2SIn : P2SIn :=
  ⟨PF.val 1, 2, true,
   [(PF.val 3, PF.val 4, PF.val 1), (PF.val 3, PF.val 4, PF.val 1),
    (PF.val 3, PF.val 4, PF.val 1)],
   [(PF.val 3, PF.val 4, PF.val 1), (PF.val 3, PF.val 4, PF.val 1),
    (PF.val 3, PF.val 4, PF.val 1)],
   [exP, exP, exP]⟩

/-- The trace an outcome carries. -/
def p2sTraceOf : P2SOutcome → List (ℕ × ℕ)
  | P2SOutcome.crashed tr => tr
  | P2SOutcome.finished st => st.swapTrace

/-- Every swap round the resolver attempts either was already recorded or
swaps at least one and strictly fewer than half of the remaining
cameras. -/
theorem swapLoop_trace_prop (I : P2SIn) (svd : List V4 → V4) (m C : ℕ)
    (qF xswF yswF : List (List PF)) :
    ∀ (fuel k : ℕ) (xf yf : List (List PF)) (eos : PF) (sb : Option (ℕ × V3))
      (tr : List (ℕ × ℕ)),
      1 ≤ k →
      ∀ p ∈ (swapLoop I svd m C qF xswF yswF fuel k xf yf eos sb tr).1,
        p ∈ tr ∨ (1 ≤ p.2 ∧ 2 * p.2 < p.1) := by
  intro fuel
  induction fuel with
  | zero =>
      intro k xf yf eos sb tr _ p hp
      exact Or.inl hp
  | succ fuel ih =>
      intro k xf yf eos sb tr hk p hp
      rw [swapLoop] at hp
      by_cases hcond : PF.lt I.thr eos = true ∧ 2 * k < m
      · rw [if_pos hcond] at hp
        have := ih (k + 1) _ _ _ _ _ (by omega) p hp
        rcases this with hin | hgood
        · rcases List.mem_append.mp hin with hin | hin
          · exact Or.inl hin
          · right
            rw [List.mem_singleton.mp hin]
            exact ⟨hk, hcond.2⟩
        · exact Or.inr hgood
      · rw [if_neg hcond] at hp
        exact Or.inl hp

/-- One step only extends the recorded swap rounds with good rounds
(at least one and fewer than half of the remaining cameras swapped). -/
theorem p2sStep_trace (I : P2SIn) (svd : List V4 → V4) (off : ℕ) (st : P2SState) :
    (∀ st2, p2sStep I svd off st = P2SStepOut.next st2 →
      ∀ p ∈ st2.swapTrace, p ∈ st.swapTrace ∨ (1 ≤ p.2 ∧ 2 * p.2 < p.1)) ∧
    (∀ tr, p2sStep I svd off st = P2SStepOut.boom tr →
      ∀ p ∈ tr, p ∈ st.swapTrace ∨ (1 ≤ p.2 ∧ 2 * p.2 < p.1)) := by
  have hswap : ∀ p ∈ (p2sSwapCall I svd off st).1,
      p ∈ st.swapTrace ∨ (1 ≤ p.2 ∧ 2 * p.2 < p.1) := by
    intro p hp
    exact swapLoop_trace_prop I svd _ _ _ _ _ _ 1 _ _ _ _ _ (le_refl 1) p hp
  constructor
  · intro st2 h p hp
    unfold p2sStep at h
    split at h
    · exact absurd h (by simp)
    · split at h
      · exact absurd h (by simp)
      · split at h
        · exact absurd h (by simp)
        · split at h
          · unfold p2sAfterSwap at h
            split at h
            · split at h
              · injection h with h1
                subst h1
                exact hswap p hp
              · exact absurd h (by simp)
            · injection h with h1
              subst h1
              exact hswap p hp
          · injection h with h1
            subst h1
            exact Or.inl hp
  · intro tr h p hp
    unfold p2sStep at h
    split at h
    · injection h with h1
      subst h1
      exact Or.inl hp
    · split at h
      · exact absurd h (by simp)
      · split at h
        · injection h with h1
          subst h1
          exact Or.inl hp
        · split at h
          · unfold p2sAfterSwap at h
            split at h
            · split at h
              · exact absurd h (by simp)
              · injection h with h1
                subst h1
                exact hswap p hp
            · exact absurd h (by simp)
          · exact absurd h (by simp)

/-- Every swap round recorded by a run of the outer loop swaps at least
one and strictly fewer than half of the remaining cameras. -/
theorem p2sLoop_trace_prop (I : P2SIn) (svd : List V4 → V4) :
    ∀ (fuel off : ℕ) (st : P2SState),
      (∀ p ∈ st.swapTrace, 1 ≤ p.2 ∧ 2 * p.2 < p.1) →
      ∀ p ∈ p2sTraceOf (p2sLoop I svd fuel off st),
        1 ≤ p.2 ∧ 2 * p.2 < p.1 := by
  intro fuel
  induction fuel with
  | zero =>
      intro off st hst p hp
      exact hst p hp
  | succ fuel ih =>
      intro off st hst p hp
      rw [p2sLoop] at hp
      by_cases hcond : PF.lt I.thr st.errorMin = true ∧ I.minc ≤ (p2sN I : ℤ) - (off : ℤ)
      · rw [if_pos hcond] at hp
        cases hstep : p2sStep I svd off st with
        | stop =>
            rw [hstep] at hp
            exact hst p hp
        | boom tr =>
            rw [hstep] at hp
            rcases (p2sStep_trace I svd off st).2 tr hstep p hp with hin | hgood
            · exact hst p hin
            · exact hgood
        | next st2 =>
            rw [hstep] at hp
            refine ih (off + 1) st2 ?_ p hp
            intro p' hp'
            rcases (p2sStep_trace I svd off st).1 st2 hstep p' hp' with hin | hgood
            · exact hst p' hin
            · exact hgood
      · rw [if_neg hcond] at hp
        exact hst p hp

/-- The first component of the return value is always the recorded list
of swap rounds. -/
theorem tfbc_fst (I : P2SIn) (svd : List V4 → V4) :
    (triangulation_from_best_cameras I svd).1
      = p2sTraceOf (p2sLoop I svd (p2sN I + 2) 0 ⟨PF.inf, none, none, none, none, []⟩) := by
  unfold triangulation_from_best_cameras
  cases p2sLoop I svd (p2sN I + 2) 0 ⟨PF.inf, none, none, none, none, []⟩ with
  | crashed tr => rfl
  | finished st =>
      show (if PF.lt I.thr st.errorMin = true then
          (st.swapTrace,
           P2SResult.ok ⟨PF.nan, PF.nan, PF.nan⟩ PF.nan (p2sNbExcl I st) (p2sIdExcl I st))
        else
          match st.Q with
          | some Qv => (st.swapTrace, P2SResult.ok Qv st.errorMin (p2sNbExcl I st) (p2sIdExcl I st))
          | none => (st.swapTrace, P2SResult.crash)).1 = st.swapTrace
      split
      · rfl
      · split <;> rfl

/-- C6 (amended): the left/right-swap resolver tries swap counts
`n_swapped = 1, 2, …` while `n_swapped < (n − excluded) / 2` with real
division, i.e. every attempted round swaps at least one and strictly
fewer than half of the remaining cameras (so its largest attempted count
is `ceil((n − excluded) / 2) − 1`, not `floor((n − excluded) / 2) − 1`);
and it stops as soon as a swapped configuration meets the error
threshold: whenever the current best swapped error is at or below the
threshold, the resolver attempts no further round and returns its state
unchanged. -/
theorem C6_amended_swap_bound (I : P2SIn) (svd : List V4 → V4) :
    (∀ p ∈ (triangulation_from_best_cameras I svd).1, 1 ≤ p.2 ∧ 2 * p.2 < p.1) ∧
    (∀ (m C : ℕ) (qF xswF yswF : List (List PF)) (fuel k : ℕ)
        (xf yf : List (List PF)) (eos : PF) (sb : Option (ℕ × V3))
        (tr : List (ℕ × ℕ)),
        PF.le eos I.thr = true →
        swapLoop I svd m C qF xswF yswF fuel k xf yf eos sb tr = (tr, eos, sb)) := by
  constructor
  · intro p hp
    rw [tfbc_fst] at hp
    exact p2sLoop_trace_prop I svd (p2sN I + 2) 0
      ⟨PF.inf, none, none, none, none, []⟩ (by simp) p hp
  · intro m C qF xswF yswF fuel k xf yf eos sb tr hle
    cases fuel with
    | zero => rfl
    | succ fuel =>
        have hf := PF.le_imp_not_lt hle
        have hnot : ¬(PF.lt I.thr eos = true ∧ 2 * k < m) := by
          intro hcond
          rw [hf] at hcond
          exact absurd hcond.1 (by simp)
        rw [swapLoop, if_neg hnot]

/-- Counterexample to C6 as stated: with three identical cameras (none
excluded, so `n − excluded = 3`) and swap handling on, the resolver
attempts `n_swapped = 1` even though `floor((n − excluded) / 2) − 1
= floor(3/2) − 1 = 0` — the claimed range `1 … floor((n−excluded)/2) − 1`
is empty, yet a swap round runs, because the loop bound is the real
(unfloored) `(n − excluded) / 2`. -/
theorem C6_counterexample :
    (3, 1) ∈ (triangulation_from_best_cameras exP2SIn exSvd).1 ∧ 3 / 2 - 1 = 0 := by
  constructor
  · decide
  · rfl

/-- Witness for the amended C6: the concrete run attempts the round
`(remaining = 3, n_swapped = 1)`, which satisfies the count bound; and a
resolver state whose best swapped error equals the threshold attempts no
further round. -/
theorem C6_amended_witness :
    (1 ≤ (3, 1).2 ∧ 2 * (3, 1).2 < (3, 1).1) ∧
    swapLoop exP2SIn exSvd 3 1 [[]] [[]] [[]] 5 1 [[]] [[]] (PF.val 1) none []
      = ([], PF.val 1, none) :=
  ⟨(C6_amended_swap_bound exP2SIn exSvd).1 (3, 1) (by decide),
   (C6_amended_swap_bound exP2SIn exSvd).2 3 1 [[]] [[]] [[]] 5 1 [[]] [[]]
     (PF.val 1) none [] (by decide)⟩

/-! ## No NaN escapes a successful pose2sim result below threshold -/

theorem nanargminGo_isSome (l : List PF) :
    ∀ (i : ℕ) (acc : Option (ℕ × PF)),
      (nanargminGo l i acc).isSome = (acc.isSome || l.any (fun v => !v.isnan)) := by
  induction l with
  | nil =>
      intro i acc
      simp [nanargminGo]
  | cons x t ih =>
      intro i acc
      unfold nanargminGo
      cases hx : x.isnan with
      | true =>
          rw [if_pos rfl]
          rw [ih]
          simp [hx]
      | false =>
          simp only [Bool.false_eq_true, if_false]
          cases acc with
          | none =>
              rw [ih]
              simp [hx]
          | some bp =>
              obtain ⟨bi, bv⟩ := bp
              show (if PF.lt x bv = true then nanargminGo t (i + 1) (some (i, x))
                else nanargminGo t (i + 1) (some (bi, bv))).isSome = _
              by_cases hlt : PF.lt x bv = true
              · rw [if_pos hlt, ih]
                simp [hx]
              · rw [if_neg hlt, ih]
                simp [hx]

theorem npNanargmin_some_any {l : List PF} {j : ℕ} (h : npNanargmin l = some j) :
    l.any (fun v => !v.isnan) = true := by
  have := nanargminGo_isSome l 0 none
  unfold npNanargmin at h
  rw [h] at this
  simpa using this.symm

theorem npNanmin_nonnan {l : List PF} (h : l.any (fun v => !v.isnan) = true) :
    (npNanmin l).isnan = false := by
  have hne : l.filter (fun v => !v.isnan) ≠ [] := by
    intro hnil
    rw [List.any_eq_true] at h
    obtain ⟨e, he, hpe⟩ := h
    have : e ∈ l.filter (fun v => !v.isnan) := List.mem_filter.mpr ⟨he, hpe⟩
    rw [hnil] at this
    simp at this
  unfold npNanmin
  cases hm : l.filter (fun v => !v.isnan) with
  | nil => exact absurd hm hne
  | cons h0 t0 =>
      have hall : ∀ e ∈ h0 :: t0, e.isnan = false := by
        intro e he
        rw [← hm] at he
        have := (List.mem_filter.mp he).2
        simpa using this
      have hh0 : h0.isnan = false := hall h0 (List.mem_cons_self h0 t0)
      have ht0 : ∀ e ∈ t0, e.isnan = false :=
        fun e he => hall e (List.mem_cons_of_mem _ he)
      have hspec := pyminIdxAux_spec t0 [h0] 0 h0 ht0 hh0 (by simp) (by rfl) (by simp)
        (by intro e he; rw [List.mem_singleton.mp he]; exact PF.le_rfl' hh0)
      simp only [List.singleton_append, List.length_singleton] at hspec
      exact hspec.2.2.2.1

/-- Invariant of the outer loop state: the running error is never NaN,
and a 3D point was only ever selected if the threshold compares as a
number (is not NaN). -/
def P2SInv (thr : PF) (st : P2SState) : Prop :=
  st.errorMin.isnan = false ∧ (st.Q.isSome = true → thr.isnan = false)

theorem p2sStep_inv (I : P2SIn) (svd : List V4 → V4) (off : ℕ) (st : P2SState)
    (hthr : I.thr.isnan = false) :
    ∀ st2, p2sStep I svd off st = P2SStepOut.next st2 → P2SInv I.thr st2 := by
  intro st2 h
  unfold p2sStep at h
  split at h
  · exact absurd h (by simp)
  · split at h
    · exact absurd h (by simp)
    · split at h
      · exact absurd h (by simp)
      next bestC hna =>
        have hmin : (npNanmin (p2sLevel I svd off).errs).isnan = false :=
          npNanmin_nonnan (npNanargmin_some_any hna)
        split at h
        · unfold p2sAfterSwap at h
          split at h
          next hlt =>
            split at h
            · injection h with h1
              subst h1
              exact ⟨(PF.lt_nonnan hlt).1, fun _ => hthr⟩
            · exact absurd h (by simp)
          · injection h with h1
            subst h1
            exact ⟨hmin, fun _ => hthr⟩
        · injection h with h1
          subst h1
          exact ⟨hmin, fun _ => hthr⟩

theorem p2sLoop_inv (I : P2SIn) (svd : List V4 → V4) :
    ∀ (fuel off : ℕ) (st st' : P2SState),
      p2sLoop I svd fuel off st = P2SOutcome.finished st' →
      P2SInv I.thr st → P2SInv I.thr st' := by
  intro fuel
  induction fuel with
  | zero =>
      intro off st st' h
      simp [p2sLoop] at h
  | succ fuel ih =>
      intro off st st' h hinv
      rw [p2sLoop] at h
      by_cases hcond : PF.lt I.thr st.errorMin = true ∧ I.minc ≤ (p2sN I : ℤ) - (off : ℤ)
      · rw [if_pos hcond] at h
        have hthr : I.thr.isnan = false := (PF.lt_nonnan hcond.1).1
        cases hstep : p2sStep I svd off st with
        | stop =>
            rw [hstep] at h
            injection h with h1
            subst h1
            exact hinv
        | boom tr =>
            rw [hstep] at h
            exact absurd h (by simp)
        | next st2 =>
            rw [hstep] at h
            exact ih (off + 1) st2 st' h (p2sStep_inv I svd off st hthr st2 hstep)
      · rw [if_neg hcond] at h
        injection h with h1
        subst h1
        exact hinv

/-- C2: when a search ran but the best mean error found (after any swap
attempt) still exceeds the threshold, the best candidate is discarded:
the core selector returns no result object at all, and the pose2sim
variant only ever returns either an error at or below the threshold or
the failure sentinel with NaN error and all-NaN 3D point — never a
low-confidence point. -/
theorem C2_failure_discards_best :
    (∀ (cams : List (String × Obs)) (calibs : List (String × Calib)) (minc : ℤ)
        (thr minq : PF) (svd : List V4 → V4) (rod : V3 → M33) (st : CoreState),
        triangulate_point_run cams calibs minc thr minq svd rod = CoreRun.finished st →
        PF.lt thr st.errorMin = true →
        triangulate_point cams calibs minc thr minq svd rod = CoreResult.noresult) ∧
    (∀ (I : P2SIn) (svd : List V4 → V4) (Q : V3) (e : PF) (ne : ℕ) (ie : List ℕ),
        (triangulation_from_best_cameras I svd).2 = P2SResult.ok Q e ne ie →
        PF.le e I.thr = true ∨ (e = PF.nan ∧ Q = ⟨PF.nan, PF.nan, PF.nan⟩)) := by
  constructor
  · intro cams calibs minc thr minq svd rod st hrun hlt
    unfold triangulate_point
    rw [hrun]
    show (match st.best with
      | none => CoreResult.noresult
      | some (idxs, Q) =>
        if PF.lt thr st.errorMin = true then CoreResult.noresult
        else CoreResult.ok
          ⟨⟨Q.a, Q.b, Q.c⟩,
           idxs.map (fun i => (coreValidArrays cams calibs minq rod).names.getD i ""),
           st.errorMin⟩) = CoreResult.noresult
    cases hbest : st.best with
    | none => rfl
    | some p =>
        obtain ⟨idxs, Q⟩ := p
        show (if PF.lt thr st.errorMin = true then CoreResult.noresult
          else CoreResult.ok
            ⟨⟨Q.a, Q.b, Q.c⟩,
             idxs.map (fun i => (coreValidArrays cams calibs minq rod).names.getD i ""),
             st.errorMin⟩) = CoreResult.noresult
        rw [if_pos hlt]
  · intro I svd Q e ne ie hok
    unfold triangulation_from_best_cameras at hok
    split at hok
    · exact absurd hok (by simp)
    next st hloop =>
      split at hok
      next hthr =>
        injection hok with h1 h2 h3 h4
        exact Or.inr ⟨h2.symm, h1.symm⟩
      next hthr =>
        split at hok
        next Qv hQv =>
          injection hok with h1 h2 h3 h4
          have hinv := p2sLoop_inv I svd (p2sN I + 2) 0
            ⟨PF.inf, none, none, none, none, []⟩ st hloop ⟨rfl, by simp⟩
          have hthr_nn : I.thr.isnan = false := hinv.2 (by rw [hQv]; rfl)
          have hlt_false : PF.lt I.thr st.errorMin = false := by
            cases h : PF.lt I.thr st.errorMin with
            | true => exact absurd h hthr
            | false => rfl
          left
          rw [← h2]
          exact PF.not_lt_imp_le hthr_nn hinv.1 hlt_false
        next hQv => exact absurd hok (by simp)

/-- Witness for C2: a concrete over-threshold core search returns `None`,
and the concrete over-threshold pose2sim search returns the NaN/NaN
sentinel satisfying the failure disjunct. -/
theorem C2_witness :
    triangulate_point exCams exCalibs 2 (PF.val 1) (PF.val (1/2)) exSvd exRod
        = CoreResult.noresult ∧
    (PF.le PF.nan exP2SIn.thr = true ∨
      (PF.nan = PF.nan ∧ (⟨PF.nan, PF.nan, PF.nan⟩ : V3) = ⟨PF.nan, PF.nan, PF.nan⟩)) :=
  ⟨C2_failure_discards_best.1 exCams exCalibs 2 (PF.val 1) (PF.val (1/2)) exSvd exRod
      ⟨PF.val 5, some ([0, 1, 2], ⟨PF.val 0, PF.val 0, PF.val 0, PF.val 1⟩),
        [(0, PF.val 5), (1, PF.val 5), (1, PF.val 5), (1, PF.val 5)]⟩
      (by decide) (by decide),
   C2_failure_discards_best.2 exP2SIn exSvd ⟨PF.nan, PF.nan, PF.nan⟩ PF.nan 1 [0]
      (by decide)⟩
